import Mathlib

/-!
Verification of the note file format, parser/serializer and tree walker of
the notes CLI (`note.go`).  Go strings are modelled as `List Char`; byte
lengths are computed with `Char.utf8Size`, matching Go's byte-oriented
`len`.  Fallible operations return `Except NoteError`.  The filesystem is
modelled as an association list from paths to file contents.
-/

set_option maxHeartbeats 1000000

/-- Go strings are modelled as lists of characters. -/
abbrev GoStr := List Char

/-- Literal helper: the character list of a Lean string literal. -/
def gs (s : String) : GoStr := s.data

/-- The newline character. -/
def nlc : Char := '\n'

/-- Model of Go `unicode.IsSpace` (`strings.TrimSpace` trims these).
The ASCII and Latin-1 cases plus the `White_Space` table code points. -/
def isGoSpace (c : Char) : Bool :=
  let n := c.toNat
  n = 32 || n = 9 || n = 10 || n = 11 || n = 12 || n = 13 ||
  n = 0x85 || n = 0xA0 ||
  n = 0x1680 || (0x2000 ≤ n && n ≤ 0x200A) ||
  n = 0x2028 || n = 0x2029 || n = 0x202F || n = 0x205F || n = 0x3000

/-- Model of Go `strings.TrimSpace` on the left end only. -/
def trimLeft (s : GoStr) : GoStr := s.dropWhile isGoSpace

/-- Model of Go `strings.TrimSpace` on the right end only. -/
def trimRight (s : GoStr) : GoStr := (s.reverse.dropWhile isGoSpace).reverse

/-- Model of Go `strings.TrimSpace`: trim white space from both ends. -/
def trimSpace (s : GoStr) : GoStr := trimRight (trimLeft s)

/-- Model of Go `strings.Split(s, sep)` for a one-character separator
(the source only splits on `","` and the scanner splits on newlines).
`Split("", sep) = [""]`, as in Go. -/
def splitOnChar (sep : Char) : GoStr → List GoStr
  | [] => [[]]
  | c :: r =>
    if c = sep then [] :: splitOnChar sep r
    else
      match splitOnChar sep r with
      | [] => [[c]]
      | p :: ps => (c :: p) :: ps

/-- Model of Go `strings.Join(parts, sep)`. -/
def goJoin (sep : GoStr) : List GoStr → GoStr
  | [] => []
  | [x] => x
  | x :: xs => x ++ sep ++ goJoin sep xs

/-- Model of Go `strings.TrimSuffix`. -/
def trimSuffix (s suf : GoStr) : GoStr :=
  if suf.isSuffixOf s then s.take (s.length - suf.length) else s

/-- Byte length of a Go string (Go `len` counts UTF-8 bytes). -/
def utf8Len (s : GoStr) : Nat := (s.map Char.utf8Size).sum

/-- The tag-collection loop shared by `NewNote` and `LoadNote`: trim each
piece, drop the empty ones, keep the original order.  Both loops in the
source are character-for-character identical. -/
def collectTags : List GoStr → List GoStr
  | [] => []
  | t :: r =>
    let t' := trimSpace t
    if t' = [] then collectTags r else t' :: collectTags r

/-- Model of `bufio.ScanLines` removing one trailing carriage return. -/
def dropCR (l : GoStr) : GoStr :=
  if l.getLast? = some '\r' then l.dropLast else l

/-- Tokens produced by a `bufio.Scanner` with the default `ScanLines`
split function over a file's content: pieces between newlines with a
trailing carriage return removed; a final empty piece (the file ending in
a newline) yields no token. -/
def scanTokens (s : GoStr) : List GoStr :=
  let ps := splitOnChar '\n' s
  let ps := if ps.getLast? = some [] then ps.dropLast else ps
  ps.map dropCR

/-! ### `path/filepath` on Unix -/

/-- The inner pop loop of `filepath.Clean`'s `..` handling: the output
buffer is kept reversed (most recently appended character first); pop
characters until the just-popped character is a slash or the `dotdot`
boundary is reached. -/
def popLoop (dd : Nat) : List Char → Char → List Char
  | out, last =>
    if out.length > dd ∧ last ≠ '/' then
      match out with
      | [] => []
      | c :: rest => popLoop dd rest c
    else out

/-- Backtrack one path element in `filepath.Clean` (`out.w--` followed by
the pop-to-slash loop). -/
def popSeg (out : List Char) (dd : Nat) : List Char :=
  match out with
  | [] => []
  | c :: rest => popLoop dd rest c

/-- Main loop of Go `filepath.Clean` (Unix rules), ported with the output
buffer reversed and a fuel argument standing for the loop's progress
through the input (every iteration consumes at least one input
character, so `input.length` fuel suffices). -/
def cleanLoop (rooted : Bool) : Nat → List Char → List Char → Nat → List Char
  | 0, _, out, _ => out
  | _ + 1, [], out, _ => out
  | fuel + 1, c :: r, out, dd =>
    if c = '/' then
      cleanLoop rooted fuel r out dd
    else if c = '.' ∧ (r = [] ∨ r.head? = some '/') then
      cleanLoop rooted fuel r out dd
    else if c = '.' ∧ r.head? = some '.' ∧
        (r.tail = [] ∨ r.tail.head? = some '/') then
      if out.length > dd then
        cleanLoop rooted fuel r.tail (popSeg out dd) dd
      else if ¬ rooted then
        let out1 := if out.length > 0 then '/' :: out else out
        let out2 := '.' :: '.' :: out1
        cleanLoop rooted fuel r.tail out2 out2.length
      else
        cleanLoop rooted fuel r.tail out dd
    else
      let out1 :=
        if (rooted ∧ out.length ≠ 1) ∨ (¬ rooted ∧ out.length ≠ 0) then
          '/' :: out
        else out
      let seg := (c :: r).takeWhile (· ≠ '/')
      cleanLoop rooted fuel ((c :: r).dropWhile (· ≠ '/')) (seg.reverse ++ out1) dd

/-- Model of Go `filepath.Clean` on Unix. -/
def goClean (p : GoStr) : GoStr :=
  if p = [] then ['.']
  else
    let rooted := p.head? = some '/'
    let inp := if rooted then p.tail else p
    let out0 : List Char := if rooted then ['/'] else []
    let dd0 : Nat := if rooted then 1 else 0
    let out := cleanLoop rooted (inp.length + 1) inp out0 dd0
    if out = [] then ['.'] else out.reverse

/-- Model of Go `filepath.Base` on Unix: strip trailing slashes, keep
everything after the last remaining slash; `""` gives `"."`, an
all-slash path gives `"/"`. -/
def goFilepathBase (p : GoStr) : GoStr :=
  if p = [] then ['.']
  else
    let q := (p.reverse.dropWhile (· = '/')).reverse
    let r := (q.reverse.takeWhile (· ≠ '/')).reverse
    if r = [] then ['/'] else r

/-- Model of Go `filepath.Dir` on Unix: everything up to and including
the final slash, cleaned. -/
def goFilepathDir (p : GoStr) : GoStr :=
  goClean ((p.reverse.dropWhile (· ≠ '/')).reverse)

/-- Helper for `goFilepathExt`: scan the reversed path accumulating the
characters passed over; stop at a slash (no extension) or a dot. -/
def extFromRev : List Char → List Char → GoStr
  | [], _ => []
  | c :: r, acc =>
    if c = '/' then [] else if c = '.' then '.' :: acc else extFromRev r (c :: acc)

/-- Model of Go `filepath.Ext`: the suffix beginning at the final dot in
the final slash-separated element, empty if there is no dot. -/
def goFilepathExt (p : GoStr) : GoStr := extFromRev p.reverse []

/-- Model of Go `filepath.Join` with two elements: empty elements are
dropped and the slash-joined rest is cleaned. -/
def goJoinPath (a b : GoStr) : GoStr :=
  if a ≠ [] then goClean (a ++ '/' :: b)
  else if b ≠ [] then goClean b
  else []

/-! ### `time.Time`, `time.RFC3339` -/

/-- Model of a Go `time.Time` at second precision: the calendar
components produced by `Format` together with the zone offset in
minutes east of UTC.  `time.RFC3339` has second precision, which is all
the claims are about, so sub-second fields are not modelled. -/
structure GoTime where
  year : Nat
  month : Nat
  day : Nat
  hour : Nat
  minute : Nat
  sec : Nat
  offMin : Int
deriving DecidableEq

/-- Go's zero `time.Time` (`IsZero`): January 1 of year 1, 00:00:00 UTC. -/
def zeroGoTime : GoTime := ⟨1, 1, 1, 0, 0, 0, 0⟩

/-- The decimal digit character for `n ≤ 9`. -/
def digitC (n : Nat) : Char := Char.ofNat (48 + n)

/-- Two-digit zero-padded decimal, as Go `Format` renders `01`..`05`
components (faithful for values up to 99, which the validity bounds
guarantee). -/
def pad2 (n : Nat) : GoStr := [digitC (n / 10), digitC (n % 10)]

/-- Four-digit zero-padded decimal for the year (values up to 9999). -/
def pad4 (n : Nat) : GoStr := pad2 (n / 100) ++ pad2 (n % 100)

/-- Model of Go `t.Format(time.RFC3339)`:
`2006-01-02T15:04:05Z07:00`, where a zero offset prints `Z` and any
other offset prints a sign and `hh:mm`. -/
def formatRFC3339 (t : GoTime) : GoStr :=
  pad4 t.year ++ '-' :: pad2 t.month ++ '-' :: pad2 t.day ++
  'T' :: pad2 t.hour ++ ':' :: pad2 t.minute ++ ':' :: pad2 t.sec ++
  (if t.offMin = 0 then ['Z']
   else (if t.offMin > 0 then '+' else '-') ::
     pad2 (t.offMin.natAbs / 60) ++ ':' :: pad2 (t.offMin.natAbs % 60))

/-- Numeric value of a decimal digit character. -/
def digitVal (c : Char) : Option Nat :=
  if '0' ≤ c ∧ c ≤ '9' then some (c.toNat - 48) else none

/-- Parse exactly two decimal digits. -/
def parse2 : GoStr → Option (Nat × GoStr)
  | a :: b :: r =>
    match digitVal a, digitVal b with
    | some x, some y => some (x * 10 + y, r)
    | _, _ => none
  | _ => none

/-- Parse exactly four decimal digits. -/
def parse4 (s : GoStr) : Option (Nat × GoStr) := do
  let (hi, s) ← parse2 s
  let (lo, s) ← parse2 s
  some (hi * 100 + lo, s)

/-- Consume one expected character. -/
def expectC (c : Char) : GoStr → Option GoStr
  | d :: r => if d = c then some r else none
  | [] => none

/-- Leap-year rule used by Go's date validation. -/
def isLeap (y : Nat) : Bool := y % 4 = 0 && (y % 100 ≠ 0 || y % 400 = 0)

/-- Days in a month, as Go `Parse` validates the day-of-month. -/
def daysIn (mo y : Nat) : Nat :=
  if mo = 2 then (if isLeap y then 29 else 28)
  else if mo = 4 ∨ mo = 6 ∨ mo = 9 ∨ mo = 11 then 30 else 31

/-- Days from January 1 of year 1 to January 1 of year `y` in the
proleptic Gregorian calendar (negative for year 0, the only smaller
year a four-digit parse can produce), as Go's absolute-time computation
counts them. -/
def daysBeforeYear (y : Nat) : Int :=
  if y = 0 then -366
  else (((y - 1) * 365 + (y - 1) / 4 - (y - 1) / 100 + (y - 1) / 400 : Nat) : Int)

/-- Days from the start of year `y` to the start of month `mo` of `y`. -/
def daysBeforeMonth (y mo : Nat) : Nat :=
  (List.range (mo - 1)).foldl (fun a m => a + daysIn (m + 1) y) 0

/-- Seconds from the zero instant (January 1, year 1, 00:00:00 UTC) to
the instant `t` denotes: its wall-clock seconds in the proleptic
Gregorian calendar minus the zone offset — Go's internal `sec` field. -/
def goTimeAbsSec (t : GoTime) : Int :=
  (daysBeforeYear t.year +
      ((daysBeforeMonth t.year t.month + (t.day - 1) : Nat) : Int)) * 86400 +
    ((t.hour * 3600 + t.minute * 60 + t.sec : Nat) : Int) - t.offMin * 60

/-- Go `time.Time.IsZero`: whether `t` denotes the zero *instant*.  A
non-UTC rendering of the zero instant, such as
`0001-01-01T01:00:00+01:00`, is also zero. -/
def goTimeIsZero (t : GoTime) : Bool := goTimeAbsSec t == 0

/-- Parse the trailing zone: `Z` or a sign followed by `hh:mm`, ending
the input. -/
def parseZone : GoStr → Option Int
  | ['Z'] => some 0
  | '+' :: r => parseZoneOff 1 r
  | '-' :: r => parseZoneOff (-1) r
  | _ => none
where
  parseZoneOff (sign : Int) (r : GoStr) : Option Int := do
    let (hh, r) ← parse2 r
    let r ← expectC ':' r
    let (mm, r) ← parse2 r
    if r = [] ∧ hh ≤ 23 ∧ mm ≤ 59 then some (sign * (hh * 60 + mm)) else none

/-- Model of Go `time.Parse(time.RFC3339, s)` on the canonical layout:
fixed positions, with the component range checks Go performs.  Fails
(`none`) when the text does not conform, as the `ParseError` branch of
`LoadNote` requires. -/
def parseRFC3339 (s : GoStr) : Option GoTime := do
  let (y, s) ← parse4 s
  let s ← expectC '-' s
  let (mo, s) ← parse2 s
  let s ← expectC '-' s
  let (d, s) ← parse2 s
  let s ← expectC 'T' s
  let (h, s) ← parse2 s
  let s ← expectC ':' s
  let (mi, s) ← parse2 s
  let s ← expectC ':' s
  let (sec, s) ← parse2 s
  let off ← parseZone s
  if 1 ≤ mo ∧ mo ≤ 12 ∧ 1 ≤ d ∧ d ≤ daysIn mo y ∧
      h ≤ 23 ∧ mi ≤ 59 ∧ sec ≤ 59 then
    some ⟨y, mo, d, h, mi, sec, off⟩
  else none

/-- Side conditions under which the `GoTime` component model is exactly
what a real `time.Time` (e.g. `time.Now()`) yields under `Format`:
all calendar fields in range, a four-digit year and a whole-minute zone
offset below one day. -/
def validGoTime (t : GoTime) : Prop :=
  1 ≤ t.year ∧ t.year ≤ 9999 ∧ 1 ≤ t.month ∧ t.month ≤ 12 ∧
  1 ≤ t.day ∧ t.day ≤ daysIn t.month t.year ∧
  t.hour ≤ 23 ∧ t.minute ≤ 59 ∧ t.sec ≤ 59 ∧ t.offMin.natAbs ≤ 23 * 60 + 59

instance (t : GoTime) : Decidable (validGoTime t) := by
  unfold validGoTime; infer_instance

/-! ### Data model, errors, filesystem -/

/-- Model of `Config`: the fields the core uses. -/
structure Config where
  homePath : GoStr
  editorPath : GoStr
deriving DecidableEq

/-- Model of the `Note` struct.  Go distinguishes a `nil` tag slice from
an empty one, so `tags` is an `Option`; the zero value of the struct has
`none` (`nil`), and `NewNote` and the `- Tags:` branch of `LoadNote`
always store `some`. -/
structure Note where
  config : Config
  category : GoStr
  tags : Option (List GoStr)
  created : GoTime
  file : GoStr
  title : GoStr
deriving DecidableEq

/-- The error values the core produces, one constructor per `errors.New`
/ `errors.Errorf` / wrap site, carrying the values named in the message. -/
inductive NoteError where
  /-- `NewNote`: "Category cannot be empty". -/
  | validationEmptyCategory
  /-- `NewNote`: "File name cannot be empty". -/
  | validationEmptyFile
  /-- `LoadNote` / `ReadBodyN`: could not open the note file. -/
  | ioOpen (path : GoStr)
  /-- `LoadNote`: category mismatch between file path and file content,
  carrying the path-derived category, the in-file category and the path. -/
  | consistency (pathCat fileCat : GoStr) (path : GoStr)
  /-- `LoadNote`: created date not in RFC3339 format (carries the line). -/
  | parseTime (line : GoStr)
  /-- `LoadNote`: no `=`-bar title found. -/
  | parseNoTitle (path : GoStr)
  /-- `LoadNote`: Category/Tags/Created metadata missing. -/
  | validationMissing (path : GoStr)
  /-- `Create`: file already exists, carrying the relative path. -/
  | alreadyExists (relPath : GoStr)
  /-- `ReadBodyN`: end of stream (or read failure) while metadata is
  still incomplete, carrying the relative path. -/
  | ioReadMeta (relPath : GoStr)
  /-- `ReadBodyN`: a non-EOF failure surfaced by the bounded copy. -/
  | ioCopy
deriving DecidableEq

/-- The filesystem as far as `Create` and `LoadNote` observe it: an
association list from file paths to file contents. -/
abbrev FS := List (GoStr × GoStr)

/-- Look a path up in the modelled filesystem (`os.Stat` succeeding /
`os.Open` finding the file). -/
def lookupFS : FS → GoStr → Option GoStr
  | [], _ => none
  | (p, c) :: r, q => if p = q then some c else lookupFS r q

/-- Model of `NewNote`: validate category and file-name hint, split,
trim and filter the raw tags, normalize the file name (spaces to
hyphens, ensure the `.md` suffix) and stamp the current time, which is
passed in explicitly. -/
def NewNote (cat tags file title : GoStr) (cfg : Config) (now : GoTime) :
    Except NoteError Note :=
  if cat = [] then .error .validationEmptyCategory
  else if file = [] then .error .validationEmptyFile
  else
    let ts := collectTags (splitOnChar ',' tags)
    let file := file.map (fun c => if c = ' ' then '-' else c)
    let file := if (gs ".md").isSuffixOf file then file else file ++ gs ".md"
    .ok ⟨cfg, cat, some ts, now, file, title⟩

/-- `note.DirPath()`. -/
def Note.dirPath (note : Note) : GoStr :=
  goJoinPath note.config.homePath note.category

/-- `note.RelFilePath()`. -/
def Note.relFilePath (note : Note) : GoStr :=
  goJoinPath note.category note.file

/-- The header content `Create` renders into its buffer, write for
write: title line, `=`-bar of the title's byte length, the three
metadata lines, and a final blank line. -/
def renderNote (note : Note) : GoStr :=
  let title := if note.title = [] then
    trimSuffix note.file (goFilepathExt note.file) else note.title
  let b := title ++ [nlc]
  let b := b ++ List.replicate (utf8Len title) '=' ++ [nlc]
  let b := b ++ gs "- Category: " ++ note.category ++ [nlc]
  let b := b ++ gs "- Tags: " ++ goJoin (gs ", ") (note.tags.getD []) ++ [nlc]
  let b := b ++ gs "- Created: " ++ formatRFC3339 note.created ++ [nlc, nlc]
  b

/-- Model of `note.Create()`: render the header, ensure the category
directory (`os.MkdirAll`, which cannot fail in the pure model), refuse
to overwrite an existing file, otherwise write the rendered content.
Returns the result together with the resulting filesystem. -/
def Note.create (note : Note) (fs : FS) : Except NoteError Unit × FS :=
  let content := renderNote note
  let d := note.dirPath
  let p := goJoinPath d note.file
  if (lookupFS fs p).isSome then
    (.error (.alreadyExists note.relFilePath), fs)
  else
    (.ok (), (p, content) :: fs)

/-! ### `LoadNote` -/

/-- The mutable state of `LoadNote`'s scan loop: the fields of the note
being populated plus the `titleFound` flag. -/
structure ScanSt where
  title : GoStr
  category : GoStr
  tags : Option (List GoStr)
  created : GoTime
  titleFound : Bool
deriving DecidableEq

/-- The initial scan state: a zero-valued `Note` and `titleFound = false`. -/
def initScanSt : ScanSt := ⟨[], [], none, zeroGoTime, false⟩

/-- `reTitleBar`: the line matches `^=+$`, i.e. is one or more `=`. -/
def isTitleBar (l : GoStr) : Bool := l ≠ [] && l.all (· = '=')

/-- One iteration of `LoadNote`'s line loop on the scanned line. -/
def processLine (path : GoStr) (st : ScanSt) (line : GoStr) :
    Except NoteError ScanSt :=
  if st.titleFound = false then
    if isTitleBar line then
      .ok { st with
        title := if st.title = [] then gs "(no title)" else st.title,
        titleFound := true }
    else
      .ok { st with title := line }
  else if (gs "- Category: ").isPrefixOf line then
    let cat := trimSpace (line.drop 12)
    let c := goFilepathBase (goFilepathDir path)
    if c ≠ cat then .error (.consistency c cat path)
    else .ok { st with category := cat }
  else if (gs "- Tags:").isPrefixOf line then
    let tags := splitOnChar ',' (trimSpace (line.drop 7))
    .ok { st with tags := some (collectTags tags) }
  else if (gs "- Created: ").isPrefixOf line then
    match parseRFC3339 (trimSpace (line.drop 11)) with
    | none => .error (.parseTime line)
    | some t => .ok { st with created := t }
  else
    .ok st

/-- `LoadNote`'s early-exit condition: all four fields populated
(`!note.Created.IsZero()` is the instant-based check). -/
def scanDone (st : ScanSt) : Bool :=
  st.category ≠ [] && st.tags ≠ none && !goTimeIsZero st.created &&
    st.title ≠ []

/-- Outcome of the scan loop: an error, an early `break`, or running out
of lines. -/
inductive ScanOut where
  | err (e : NoteError)
  | broke (st : ScanSt)
  | ended (st : ScanSt)
deriving DecidableEq

/-- `LoadNote`'s scan loop over the scanner's tokens. -/
def scanLines (path : GoStr) (st : ScanSt) : List GoStr → ScanOut
  | [] => .ended st
  | l :: rest =>
    match processLine path st l with
    | .error e => .err e
    | .ok st' => if scanDone st' then .broke st' else scanLines path st' rest

/-- Model of `LoadNote` on the scanned lines of the file at `path`:
run the scan loop from the zero state, then apply the post-loop
`titleFound` and missing-metadata checks.  (The scanner itself cannot
fail on in-memory content, so `s.Err()` is `nil`.) -/
def loadNoteLines (path : GoStr) (cfg : Config) (lines : List GoStr) :
    Except NoteError Note :=
  let out := scanLines path initScanSt lines
  match out with
  | .err e => .error e
  | .broke st | .ended st =>
    if st.titleFound = false then .error (.parseNoTitle path)
    else if st.category = [] ∨ st.tags = none ∨ goTimeIsZero st.created = true
    then
      .error (.validationMissing path)
    else
      .ok ⟨cfg, st.category, st.tags, st.created, goFilepathBase path, st.title⟩

/-- Model of `LoadNote`: open the file in the modelled filesystem and
parse its scanned lines. -/
def LoadNote (path : GoStr) (cfg : Config) (fs : FS) : Except NoteError Note :=
  match lookupFS fs path with
  | none => .error (.ioOpen path)
  | some content => loadNoteLines path cfg (scanTokens content)

/-! ### `ReadBodyN` -/

/-- The byte stream `ReadBodyN` reads (the note file's bytes), together
with a flag saying whether exhausting the stream reports a failure other
than `io.EOF` (a plain end of file has the flag `false`). -/
structure ByteStream where
  data : List Nat
  errAtEnd : Bool
deriving DecidableEq

/-- ASCII bytes of a marker string. -/
def asciiBytes (s : String) : List Nat := s.data.map Char.toNat

/-- Model of `bufio`'s `ReadString('\n')` / `ReadBytes('\n')` on the
remaining bytes: the token up to and including the newline, the rest,
and whether the stream was exhausted without finding a newline (in which
case the read reports an error alongside the data). -/
def readBytesNl : List Nat → List Nat × List Nat × Bool
  | [] => ([], [], true)
  | b :: r =>
    if b = 10 then ([10], r, false)
    else
      let (tk, rest, e) := readBytesNl r
      (b :: tk, rest, e)

/-- The metadata-skip loop of `ReadBodyN`: read lines, record which of
the three markers have been seen, stop as soon as all three have been
seen, and fail if the stream ends first.  (Both an `io.EOF` and any
other read failure are wrapped into the same metadata error.) -/
def metaLoop (relPath : GoStr) (fuel : Nat) (sawCat sawTags sawCreated : Bool)
    (data : List Nat) : Except NoteError (List Nat) :=
  match fuel with
  | 0 => .error (.ioReadMeta relPath)
  | fuel + 1 =>
    let (t, rest, hitEnd) := readBytesNl data
    let sawCat := sawCat || (asciiBytes "- Category: ").isPrefixOf t
    let sawTags := sawTags || (asciiBytes "- Tags:").isPrefixOf t
    let sawCreated := sawCreated || (asciiBytes "- Created: ").isPrefixOf t
    if sawCat && sawTags && sawCreated then .ok rest
    else if hitEnd then .error (.ioReadMeta relPath)
    else metaLoop relPath fuel sawCat sawTags sawCreated rest

/-- The blank-line-skip loop of `ReadBodyN`: read lines, discarding the
empty ones, until a line longer than the bare newline is found (that
line is kept in the buffer) or a read fails (any failure, `io.EOF`
included, just breaks the loop, discarding data returned with it). -/
def skipBlank (fuel : Nat) (data : List Nat) : List Nat × List Nat :=
  match fuel with
  | 0 => ([], data)
  | fuel + 1 =>
    let (b, rest, hitEnd) := readBytesNl data
    if hitEnd then ([], rest)
    else if b.length > 1 then (b, rest)
    else skipBlank fuel rest

/-- Model of `note.ReadBodyN(maxBytes)` on the note file's byte stream:
skip the metadata, skip blank lines, then return the first retained line
truncated to the budget, or the line plus up to the remaining budget of
further bytes (`io.CopyN`, where running out of input is an error only
when the stream reports a failure other than `io.EOF`). -/
def ReadBodyN (maxBytes : Int) (s : ByteStream) (relPath : GoStr) :
    Except NoteError (List Nat) :=
  match metaLoop relPath (s.data.length + 1) false false false s.data with
  | .error e => .error e
  | .ok rest =>
    let (buf, rest2) := skipBlank (rest.length + 1) rest
    let len : Int := buf.length
    if len > maxBytes then .ok (buf.take maxBytes.toNat)
    else
      let remaining := maxBytes - len
      if remaining > (rest2.length : Int) ∧ s.errAtEnd then .error .ioCopy
      else .ok (buf ++ rest2.take remaining.toNat)

/-! ### `WalkNotes` -/

mutual
/-- A directory tree, as `filepath.Walk` traverses it.  The entry lists
are understood in the sorted order `filepath.Walk` produces. -/
inductive FTree where
  | file (name : GoStr) (content : GoStr)
  | dir (name : GoStr) (entries : FForest)
deriving DecidableEq

inductive FForest where
  | nil
  | cons (t : FTree) (ts : FForest)
deriving DecidableEq
end

/-- The on-disk name of a tree node (`FileInfo.Name()` of its entry). -/
def FTree.name : FTree → GoStr
  | .file n _ => n
  | .dir n _ => n

/-- Errors a walk can end with: a failed `LoadNote` or a visitor error
(the Go code wraps either in the traversal hint before returning). -/
inductive WalkErr where
  | load (e : NoteError)
  | visitor (e : GoStr)
deriving DecidableEq

/-- A record of one visitor invocation: the path segments from the walk
root (directories then the file name), the path handed to the visitor,
and the loaded note. -/
structure Visit where
  segs : List GoStr
  path : GoStr
  note : Note
deriving DecidableEq

mutual
/-- Model of the `filepath.Walk` traversal with the walk function of
`WalkNotes`: skip `.git` directories entirely, skip files without the
`.md` suffix, load every other file and hand it to the visitor, aborting
on the first error.  Alongside the result it records every visitor
invocation (with the segment path as ghost data for the statements).
`p` is the node's path, `infoName` its `FileInfo` name and `segs` its
segments below the walk root. -/
def walkNode (cfg : Config) (pred : GoStr → Note → Except GoStr Unit)
    (p : GoStr) (infoName : GoStr) (segs : List GoStr) :
    FTree → Except WalkErr Unit × List Visit
  | .file _ content =>
    if (gs ".md").isSuffixOf p then
      match loadNoteLines p cfg (scanTokens content) with
      | .error e => (.error (.load e), [])
      | .ok n =>
        match pred p n with
        | .error m => (.error (.visitor m), [⟨segs, p, n⟩])
        | .ok () => (.ok (), [⟨segs, p, n⟩])
    else (.ok (), [])
  | .dir _ entries =>
    if infoName = gs ".git" then (.ok (), [])
    else walkForest cfg pred p segs entries

def walkForest (cfg : Config) (pred : GoStr → Note → Except GoStr Unit)
    (p : GoStr) (segs : List GoStr) :
    FForest → Except WalkErr Unit × List Visit
  | .nil => (.ok (), [])
  | .cons t ts =>
    let child := walkNode cfg pred (goJoinPath p t.name) t.name
      (segs ++ [t.name]) t
    match child with
    | (.error e, vs) => (.error e, vs)
    | (.ok (), vs) =>
      let rest := walkForest cfg pred p segs ts
      (rest.1, vs ++ rest.2)
end

/-- Model of `WalkNotes` rooted at `rootPath`, whose on-disk entry is
`tree` (so the root's `FileInfo` name is the base of `rootPath`). -/
def WalkNotes (rootPath : GoStr) (tree : FTree) (cfg : Config)
    (pred : GoStr → Note → Except GoStr Unit) :
    Except WalkErr Unit × List Visit :=
  walkNode cfg pred rootPath (goFilepathBase rootPath) [] tree

/-! ### Spec-side definitions used by the theorem statements -/

deriving instance DecidableEq for Except

/-- The title `Create` serializes: the stored title, or the file name
with its extension stripped when the title is empty. -/
def effTitle (note : Note) : GoStr :=
  if note.title = [] then trimSuffix note.file (goFilepathExt note.file)
  else note.title

/-- The tag rule as the spec states it: split on commas, trim each
piece, discard the empty pieces, preserving the order. -/
def tagsRule (raw : GoStr) : List GoStr :=
  ((splitOnChar ',' raw).map trimSpace).filter (· ≠ [])

/-- The title the scan loop keeps, stated from the file's lines: the
last non-bar line before the first all-`=` line, with the sentinel for
a missing or empty one. -/
def titleOf (lines : List GoStr) : GoStr :=
  match (lines.takeWhile (fun l => !(isTitleBar l))).getLast? with
  | none => gs "(no title)"
  | some l => if l = [] then gs "(no title)" else l

/-- Spec-side marker accounting for `ReadBodyN`: scan every line to the
end of the stream (no early break) and report whether all three
metadata markers were observed. -/
def scanAllMarkers (fuel : Nat) (sawCat sawTags sawCreated : Bool)
    (data : List Nat) : Bool :=
  match fuel with
  | 0 => sawCat && sawTags && sawCreated
  | fuel + 1 =>
    let (t, rest, hitEnd) := readBytesNl data
    let sawCat := sawCat || (asciiBytes "- Category: ").isPrefixOf t
    let sawTags := sawTags || (asciiBytes "- Tags:").isPrefixOf t
    let sawCreated := sawCreated || (asciiBytes "- Created: ").isPrefixOf t
    if hitEnd then sawCat && sawTags && sawCreated
    else scanAllMarkers fuel sawCat sawTags sawCreated rest

/-! ### Concrete inputs for witnesses and counterexamples -/

/-- A concrete configuration with store root `home`. -/
def wCfg : Config := ⟨gs "home", []⟩

/-- A concrete creation timestamp, 2020-01-02T03:04:05Z. -/
def wTime : GoTime := ⟨2020, 1, 2, 3, 4, 5, 0⟩

/-- The note `NewNote("blog", " foo,bar ,  ", "my note", "Hello")`
produces at `wTime`. -/
def wNote : Note :=
  ⟨wCfg, gs "blog", some [gs "foo", gs "bar"], wTime, gs "my-note.md", gs "Hello"⟩

/-- The note `NewNote("blog", "", "x", "=")` produces at `wTime`: its
title is itself a title-bar line. -/
def cexBarNote : Note :=
  ⟨wCfg, gs "blog", some [], wTime, gs "x.md", gs "="⟩

/-- Lines with the `- Category: ` line (empty remainder) placed before
the title bar: the header contains the line, but the scan never parses
it as a category. -/
def cexC10Lines : List GoStr :=
  [gs "- Category: ", gs "T", gs "====", gs "- Tags: a",
   gs "- Created: 2020-01-02T03:04:05Z"]

/-- Bytes of a complete metadata block. -/
def wMetaBytes : List Nat :=
  asciiBytes "- Category: a\n- Tags:\n- Created: x\n"

/-- A stream that ends in a non-EOF failure right after a complete
metadata block. -/
def cexErrStream : ByteStream := ⟨wMetaBytes, true⟩

/-- A well-formed stream whose first body line is not newline
terminated. -/
def cexNoNlStream : ByteStream := ⟨wMetaBytes ++ asciiBytes "BODY", false⟩

/-- A well-formed stream with one blank line and a body. -/
def wBodyStream : ByteStream :=
  ⟨wMetaBytes ++ asciiBytes "\nBody line\nmore", false⟩

/-- A one-file store for the walk witness. -/
def wTree : FTree :=
  .dir (gs "store")
    (.cons (.dir (gs ".git")
        (.cons (.file (gs "hidden.md") (gs "x")) .nil))
      (.cons (.dir (gs "blog")
        (.cons (.file (gs "a.md")
            (gs "T\n=\n- Category: blog\n- Tags: \n- Created: 2020-01-02T03:04:05Z\n\n"))
          (.cons (.file (gs "note.txt") (gs "y")) .nil)))
        .nil))

/-- A visitor that always succeeds. -/
def wPred : GoStr → Note → Except GoStr Unit := fun _ _ => .ok ()

/-- A store that already holds a file at `wNote`'s target path. -/
def wFS4 : FS := [(gs "home/blog/my-note.md", gs "old content")]

/-- The note loaded from `wTree`'s single real note file. -/
def wVisitNote : Note := ⟨wCfg, gs "blog", some [], wTime, gs "a.md", gs "T"⟩

/-- The single visit the walk over `wTree` performs. -/
def wVisit : Visit := ⟨[gs "blog", gs "a.md"], gs "store/blog/a.md", wVisitNote⟩

/-! ## Helper lemmas -/

theorem isPrefixOf_append_self (a b : List Char) :
    a.isPrefixOf (a ++ b) = true := by
  induction a with
  | nil => simp [List.isPrefixOf]
  | cons c cs ih => simp [List.isPrefixOf, ih]

theorem goFilepathBase_ne_nil (p : GoStr) : goFilepathBase p ≠ [] := by
  unfold goFilepathBase
  split
  · simp
  · dsimp only
    split
    · simp
    · next h => exact h

theorem scanLines_append (path : GoStr) (l1 l2 : List GoStr) :
    ∀ st st1, scanLines path st l1 = .ended st1 →
      scanLines path st (l1 ++ l2) = scanLines path st1 l2 := by
  induction l1 with
  | nil =>
    intro st st1 h
    simp only [scanLines] at h
    cases h
    rfl
  | cons l rest ih =>
    intro st st1 h
    simp only [List.cons_append, scanLines] at h ⊢
    cases hp : processLine path st l with
    | error e => simp [hp] at h
    | ok st' =>
      simp only [hp] at h ⊢
      by_cases hd : scanDone st' = true
      · simp [hd] at h
      · simp only [hd, if_false] at h ⊢
        exact ih st' st1 h

theorem loadNoteLines_err (path : GoStr) (cfg : Config) (lines : List GoStr)
    (e : NoteError) (h : scanLines path initScanSt lines = .err e) :
    loadNoteLines path cfg lines = .error e := by
  unfold loadNoteLines
  rw [h]

/-! ## C4 -/

/-- C4: when the target path `storeRoot/category/file` already names an
existing file, `Create` fails with `AlreadyExistsError` carrying the
relative path `category/file` and leaves the filesystem (in particular
the existing file's content) unchanged; no write happens on this path. -/
theorem c4_already_exists (note : Note) (fs : FS)
    (h : (lookupFS fs (goJoinPath note.dirPath note.file)).isSome = true) :
    note.create fs = (.error (.alreadyExists note.relFilePath), fs) := by
  unfold Note.create
  simp only [h, if_true]

/-- Witness for C4 at a concrete note and store. -/
theorem c4_already_exists_witness :
    (lookupFS wFS4 (goJoinPath wNote.dirPath wNote.file)).isSome = true ∧
    wNote.create wFS4 =
      (.error (.alreadyExists wNote.relFilePath), wFS4) :=
  ⟨by decide, c4_already_exists wNote wFS4 (by decide)⟩

/-! ## C5 -/

theorem utf8Len_replicate_eq (n : Nat) :
    utf8Len (List.replicate n '=') = n := by
  induction n with
  | zero => rfl
  | succ k ih =>
    simp only [List.replicate_succ, utf8Len, List.map_cons, List.sum_cons] at ih ⊢
    rw [ih]
    have h1 : '='.utf8Size = 1 := rfl
    omega

/-- C5: the content `Create` writes is exactly the title line, a line of
`=` of the title's byte length, the three metadata lines
`- Category: `, `- Tags: ` (comma-space joined), `- Created: `
(RFC3339), in that order, then one blank line and nothing else; the bar
has the title's byte length, and in particular title `Hello` yields bar
`=====`. -/
theorem c5_create_format (note : Note) :
    renderNote note =
      effTitle note ++ [nlc] ++
      (List.replicate (utf8Len (effTitle note)) '=' ++ [nlc]) ++
      (gs "- Category: " ++ note.category ++ [nlc]) ++
      (gs "- Tags: " ++ goJoin (gs ", ") (note.tags.getD []) ++ [nlc]) ++
      (gs "- Created: " ++ formatRFC3339 note.created ++ [nlc]) ++ [nlc] ∧
    utf8Len (List.replicate (utf8Len (effTitle note)) '=') =
      utf8Len (effTitle note) ∧
    List.replicate (utf8Len (gs "Hello")) '=' = gs "=====" := by
  refine ⟨?_, utf8Len_replicate_eq _, by decide⟩
  simp [renderNote, effTitle, List.append_assoc]

/-! ## C10 -/

/-- C10 (amended): when the metadata scan (title already found) reaches
a `- Category: ` line whose remainder trims to the empty string,
`LoadNote` fails with the category-mismatch `ConsistencyError`, never
the missing-metadata `ValidationError`, because `filepath.Base` of the
parent directory is never the empty string. -/
theorem c10_empty_category :
    (∀ q : GoStr, goFilepathBase q ≠ []) ∧
    (∀ (path : GoStr) (cfg : Config) (pre post : List GoStr) (rest : GoStr)
      (st : ScanSt),
      scanLines path initScanSt pre = .ended st →
      st.titleFound = true →
      trimSpace rest = [] →
      loadNoteLines path cfg (pre ++ (gs "- Category: " ++ rest) :: post) =
        .error (.consistency (goFilepathBase (goFilepathDir path)) [] path)) := by
  refine ⟨goFilepathBase_ne_nil, ?_⟩
  intro path cfg pre post rest st hpre htf htrim
  apply loadNoteLines_err
  rw [scanLines_append path pre _ initScanSt st hpre]
  have hdrop : (gs "- Category: " ++ rest).drop 12 = rest := by
    rw [show (12 : Nat) = (gs "- Category: ").length from rfl]
    exact List.drop_left _ _
  simp only [scanLines, processLine, htf, Bool.true_eq_false, if_false,
    isPrefixOf_append_self, if_true, hdrop, htrim]
  rw [if_pos (goFilepathBase_ne_nil _)]

/-- Witness for C10 at a concrete file: title `T`, bar, then the empty
`- Category: ` line. -/
theorem c10_empty_category_witness :
    (scanLines (gs "home/blog/x.md") initScanSt [gs "T", gs "="] =
      .ended ⟨gs "T", [], none, zeroGoTime, true⟩) ∧
    (⟨gs "T", [], none, zeroGoTime, true⟩ : ScanSt).titleFound = true ∧
    trimSpace [] = [] ∧
    loadNoteLines (gs "home/blog/x.md") wCfg
        ([gs "T", gs "="] ++ (gs "- Category: " ++ []) :: [gs "- Tags: a"]) =
      .error (.consistency
        (goFilepathBase (goFilepathDir (gs "home/blog/x.md"))) []
        (gs "home/blog/x.md")) :=
  ⟨by decide, by decide, by decide,
    c10_empty_category.2 (gs "home/blog/x.md") wCfg [gs "T", gs "="]
      [gs "- Tags: a"] [] ⟨gs "T", [], none, zeroGoTime, true⟩
      (by decide) (by decide) (by decide)⟩

/-- Counterexample to C10 as stated: this file's header contains a
`- Category: ` line whose remainder trims to empty (placed before the
title bar), yet `LoadNote` fails with the missing-metadata
`ValidationError`, not the `ConsistencyError` the claim requires. -/
theorem c10_counterexample :
    loadNoteLines (gs "home/blog/x.md") wCfg cexC10Lines =
      .error (.validationMissing (gs "home/blog/x.md")) := by decide

/-! ## C2 -/

/-- C2: when the scan (title found, no category parsed yet) reaches a
`- Category: ` line whose trimmed remainder differs from the base name
of the file's parent directory, `LoadNote` fails immediately with a
`ConsistencyError` naming both values and the path; the result does not
depend on any later line of the file. -/
theorem c2_category_mismatch (path : GoStr) (cfg : Config)
    (pre post : List GoStr) (rest : GoStr) (st : ScanSt)
    (hpre : scanLines path initScanSt pre = .ended st)
    (htf : st.titleFound = true)
    (hfirst : st.category = [])
    (hne : trimSpace rest ≠ goFilepathBase (goFilepathDir path)) :
    loadNoteLines path cfg (pre ++ (gs "- Category: " ++ rest) :: post) =
      .error (.consistency (goFilepathBase (goFilepathDir path))
        (trimSpace rest) path) := by
  apply loadNoteLines_err
  rw [scanLines_append path pre _ initScanSt st hpre]
  have hdrop : (gs "- Category: " ++ rest).drop 12 = rest := by
    rw [show (12 : Nat) = (gs "- Category: ").length from rfl]
    exact List.drop_left _ _
  simp only [scanLines, processLine, htf, Bool.true_eq_false, if_false,
    isPrefixOf_append_self, if_true, hdrop]
  rw [if_pos (fun h => hne h.symm)]

/-- Witness for C2 at a concrete file whose header category `wrong`
differs from the parent directory `blog`. -/
theorem c2_category_mismatch_witness :
    (scanLines (gs "home/blog/x.md") initScanSt [gs "T", gs "="] =
      .ended ⟨gs "T", [], none, zeroGoTime, true⟩) ∧
    trimSpace (gs "wrong") ≠
      goFilepathBase (goFilepathDir (gs "home/blog/x.md")) ∧
    loadNoteLines (gs "home/blog/x.md") wCfg
        ([gs "T", gs "="] ++ (gs "- Category: " ++ gs "wrong") ::
          [gs "- Tags: a", gs "garbage"]) =
      .error (.consistency
        (goFilepathBase (goFilepathDir (gs "home/blog/x.md")))
        (trimSpace (gs "wrong")) (gs "home/blog/x.md")) :=
  ⟨by decide, by decide,
    c2_category_mismatch (gs "home/blog/x.md") wCfg [gs "T", gs "="]
      [gs "- Tags: a", gs "garbage"] (gs "wrong")
      ⟨gs "T", [], none, zeroGoTime, true⟩
      (by decide) (by decide) (by decide) (by decide)⟩

/-! ## C3 -/

theorem processLine_post (path : GoStr) (st : ScanSt) (l : GoStr)
    (st2 : ScanSt) (htf : st.titleFound = true)
    (h : processLine path st l = .ok st2) :
    st2.title = st.title ∧ st2.titleFound = true := by
  simp only [processLine, htf, Bool.true_eq_false, if_false] at h
  split at h
  · split at h
    · cases h
    · cases h; exact ⟨rfl, rfl⟩
  · split at h
    · cases h; exact ⟨rfl, rfl⟩
    · split at h
      · split at h
        · cases h
        · cases h; exact ⟨rfl, rfl⟩
      · cases h; exact ⟨rfl, htf⟩

theorem scanLines_post (path : GoStr) (lines : List GoStr) :
    ∀ st st', st.titleFound = true →
      (scanLines path st lines = .broke st' ∨
       scanLines path st lines = .ended st') →
      st'.title = st.title ∧ st'.titleFound = true := by
  induction lines with
  | nil =>
    intro st st' htf h
    rcases h with h | h
    · simp [scanLines] at h
    · simp only [scanLines] at h
      cases h
      exact ⟨rfl, htf⟩
  | cons l rest ih =>
    intro st st' htf h
    rcases h with h | h <;>
    · simp only [scanLines] at h
      cases hp : processLine path st l with
      | error e => simp [hp] at h
      | ok st1 =>
        simp only [hp] at h
        obtain ⟨ht1, htf1⟩ := processLine_post path st l st1 htf hp
        by_cases hd : scanDone st1 = true
        · simp only [hd, if_true] at h
          first
          | (cases h; exact ⟨ht1, htf1⟩)
          | simp at h
        · simp only [hd, if_false] at h
          refine (ih st1 st' htf1 ?_).imp (fun e => e.trans ht1) id
          first | exact Or.inl h | exact Or.inr h

theorem scanLines_prebar (path : GoStr) (pre : List GoStr) :
    ∀ st, (∀ l ∈ pre, isTitleBar l = false) →
      st.titleFound = false → st.category = [] →
      scanLines path st pre =
        .ended ⟨pre.getLast?.getD st.title, st.category, st.tags,
          st.created, false⟩ := by
  induction pre with
  | nil =>
    intro st _ htf hcat
    obtain ⟨t, c, tg, cr, tf⟩ := st
    cases tf with
    | false => rfl
    | true => exact Bool.noConfusion htf
  | cons l rest ih =>
    intro st hbar htf hcat
    have hbl : isTitleBar l = false := hbar l (by simp)
    simp only [scanLines, processLine, htf, if_true, hbl, Bool.false_eq_true,
      if_false]
    have hd : scanDone ⟨l, st.category, st.tags, st.created, false⟩ = false := by
      simp [scanDone, hcat]
    simp only [hd, Bool.false_eq_true, if_false]
    rw [ih ⟨l, st.category, st.tags, st.created, false⟩
      (fun x hx => hbar x (by simp [hx])) rfl hcat]
    cases rest with
    | nil => simp
    | cons y ys =>
      have h1 : (y :: ys).getLast?.isSome := by
        simp [List.getLast?_isSome]
      obtain ⟨z, hz⟩ := Option.isSome_iff_exists.mp h1
      simp [hz]

theorem dropWhile_head_false {p : GoStr → Bool} {l : List GoStr}
    {x : GoStr} {xs : List GoStr} (h : l.dropWhile p = x :: xs) :
    p x = false := by
  induction l with
  | nil => simp [List.dropWhile] at h
  | cons a t ih =>
    by_cases hp : p a = true
    · simp only [List.dropWhile, hp, if_true] at h
      exact ih h
    · simp only [List.dropWhile, hp, if_false] at h
      cases h
      exact Bool.not_eq_true _ |>.mp hp

theorem takeWhile_of_decomp {p : GoStr → Bool} (pre : List GoStr)
    (x : GoStr) (r : List GoStr) (hpre : ∀ l ∈ pre, p l = true)
    (hx : p x = false) : (pre ++ x :: r).takeWhile p = pre := by
  induction pre with
  | nil => simp [List.takeWhile, hx]
  | cons a t ih =>
    have ha : p a = true := hpre a (by simp)
    simp only [List.cons_append, List.takeWhile, ha]
    exact congrArg (List.cons a) (ih (fun l hl => hpre l (by simp [hl])))

theorem loadNoteLines_no_bar (path : GoStr) (cfg : Config)
    (lines : List GoStr) (h : ∀ l ∈ lines, isTitleBar l = false) :
    loadNoteLines path cfg lines = .error (.parseNoTitle path) := by
  unfold loadNoteLines
  rw [scanLines_prebar path lines initScanSt h rfl rfl]
  rfl

/-- C3: before the bar every non-bar line overwrites the stored title,
so a successfully loaded note's title is exactly the last non-bar line
before the first all-`=` line (the sentinel `(no title)` when that line
is empty or absent); and when no all-`=` line occurs at all, `LoadNote`
fails with the no-title `ParseError`. -/
theorem c3_title_machine :
    (∀ (path : GoStr) (cfg : Config) (lines : List GoStr) (m : Note),
      loadNoteLines path cfg lines = .ok m → m.title = titleOf lines) ∧
    (∀ (path : GoStr) (cfg : Config) (lines : List GoStr),
      (∀ l ∈ lines, isTitleBar l = false) →
      loadNoteLines path cfg lines = .error (.parseNoTitle path)) := by
  refine ⟨?_, loadNoteLines_no_bar⟩
  intro path cfg lines m h
  by_cases hall : ∀ l ∈ lines, isTitleBar l = false
  · rw [loadNoteLines_no_bar path cfg lines hall] at h
    cases h
  · -- there is a bar: decompose at the first one
    cases hdw : lines.dropWhile (fun l => !(isTitleBar l)) with
    | nil =>
      exact absurd
        (fun l hl => by
          have := List.dropWhile_eq_nil_iff.mp hdw l hl
          simpa using this)
        hall
    | cons bar rest2 =>
      have hbar : isTitleBar bar = true := by
        have := dropWhile_head_false hdw
        simpa using this
      have hpre : ∀ l ∈ lines.takeWhile (fun l => !(isTitleBar l)),
          isTitleBar l = false := by
        intro l hl
        have := List.mem_takeWhile_imp hl
        simpa using this
      have hdec : lines =
          lines.takeWhile (fun l => !(isTitleBar l)) ++ bar :: rest2 := by
        rw [← hdw, List.takeWhile_append_dropWhile]
      set pre := lines.takeWhile (fun l => !(isTitleBar l)) with hpredef
      unfold loadNoteLines at h
      rw [hdec] at h
      rw [scanLines_append path pre _ initScanSt
        ⟨pre.getLast?.getD [], [], none, zeroGoTime, false⟩
        (scanLines_prebar path pre initScanSt hpre rfl rfl)] at h
      simp only [scanLines, processLine, if_true, hbar] at h
      set T : GoStr :=
        if pre.getLast?.getD [] = [] then gs "(no title)"
        else pre.getLast?.getD [] with hT
      have hd2 : scanDone ⟨T, [], none, zeroGoTime, true⟩ = false := by
        simp [scanDone]
      simp only [hd2, Bool.false_eq_true, if_false] at h
      cases ho : scanLines path ⟨T, [], none, zeroGoTime, true⟩ rest2 with
      | err e => rw [ho] at h; cases h
      | broke st3 =>
        obtain ⟨ht3, _⟩ := scanLines_post path rest2 _ st3 rfl (Or.inl ho)
        rw [ho] at h
        simp only at h
        split at h
        · cases h
        · split at h
          · cases h
          · cases h
            simp only [titleOf, ← hpredef, ht3, hT]
            cases hl : pre.getLast? with
            | none => simp
            | some lastLine => simp
      | ended st3 =>
        obtain ⟨ht3, _⟩ := scanLines_post path rest2 _ st3 rfl (Or.inr ho)
        rw [ho] at h
        simp only at h
        split at h
        · cases h
        · split at h
          · cases h
          · cases h
            simp only [titleOf, ← hpredef, ht3, hT]
            cases hl : pre.getLast? with
            | none => simp
            | some lastLine => simp

/-- Witness for C3 at a concrete file (the earlier line `skip` is
overwritten by `T`, the line right before the bar) and a concrete
bar-free file. -/
theorem c3_title_machine_witness :
    (loadNoteLines (gs "home/blog/x.md") wCfg
      [gs "skip", gs "T", gs "====", gs "- Category: blog", gs "- Tags: a",
       gs "- Created: 2020-01-02T03:04:05Z"] =
      .ok ⟨wCfg, gs "blog", some [gs "a"], wTime, gs "x.md", gs "T"⟩) ∧
    (⟨wCfg, gs "blog", some [gs "a"], wTime, gs "x.md", gs "T"⟩ : Note).title =
      titleOf [gs "skip", gs "T", gs "====", gs "- Category: blog",
        gs "- Tags: a", gs "- Created: 2020-01-02T03:04:05Z"] ∧
    loadNoteLines (gs "q") wCfg [gs "a", gs "b"] =
      .error (.parseNoTitle (gs "q")) :=
  ⟨by decide,
    c3_title_machine.1 (gs "home/blog/x.md") wCfg _ _ (by decide),
    c3_title_machine.2 (gs "q") wCfg [gs "a", gs "b"] (by decide)⟩

/-! ## C6 -/

theorem collectTags_eq (ps : List GoStr) :
    collectTags ps = (ps.map trimSpace).filter (· ≠ []) := by
  induction ps with
  | nil => rfl
  | cons t r ih =>
    simp only [collectTags, List.map_cons, List.filter_cons]
    by_cases h : trimSpace t = []
    · simp [h, ih]
    · simp [h, ih]

theorem dropWhile_idem (p : Char → Bool) (l : List Char) :
    (l.dropWhile p).dropWhile p = l.dropWhile p := by
  induction l with
  | nil => rfl
  | cons a t ih =>
    by_cases h : p a = true
    · simp only [List.dropWhile, h, if_true]
      exact ih
    · simp only [List.dropWhile, h, if_false]

theorem trimSpace_trimLeft (h : GoStr) :
    trimSpace (trimLeft h) = trimSpace h := by
  unfold trimSpace trimLeft
  rw [show (h.dropWhile isGoSpace).dropWhile isGoSpace = h.dropWhile isGoSpace
    from dropWhile_idem _ _]

theorem collectTags_congrHead (a b : GoStr) (t : List GoStr)
    (h : trimSpace a = trimSpace b) :
    collectTags (a :: t) = collectTags (b :: t) := by
  simp only [collectTags, h]

theorem space_ne_comma {c : Char} (h : isGoSpace c = true) : c ≠ ',' := by
  intro he
  subst he
  exact absurd h (by decide)

theorem splitOnChar_ne_nil (sep : Char) (s : GoStr) :
    splitOnChar sep s ≠ [] := by
  cases s with
  | nil => simp [splitOnChar]
  | cons c r =>
    simp only [splitOnChar]
    split
    · simp
    · split <;> simp

theorem splitOnChar_trimLeft (s : GoStr) :
    ∃ h t, splitOnChar ',' s = h :: t ∧
      splitOnChar ',' (trimLeft s) = trimLeft h :: t := by
  induction s with
  | nil => exact ⟨[], [], rfl, rfl⟩
  | cons c r ih =>
    by_cases hsp : isGoSpace c = true
    · have hc : c ≠ ',' := space_ne_comma hsp
      obtain ⟨h, t, h1, h2⟩ := ih
      refine ⟨c :: h, t, ?_, ?_⟩
      · simp only [splitOnChar, hc, if_false, h1]
      · have : trimLeft (c :: r) = trimLeft r := by
          simp [trimLeft, List.dropWhile, hsp]
        rw [this, h2]
        have : trimLeft (c :: h) = trimLeft h := by
          simp [trimLeft, List.dropWhile, hsp]
        rw [this]
    · have : trimLeft (c :: r) = c :: r := by
        simp [trimLeft, List.dropWhile, hsp]
      rw [this]
      cases hs : splitOnChar ',' (c :: r) with
      | nil => exact absurd hs (splitOnChar_ne_nil ',' (c :: r))
      | cons h t =>
        refine ⟨h, t, rfl, ?_⟩
        have hh : trimLeft h = h := by
          by_cases hcc : c = ','
          · subst hcc
            simp only [splitOnChar, if_true] at hs
            cases hs
            rfl
          · simp only [splitOnChar, hcc, if_false] at hs
            cases hsplit : splitOnChar ',' r with
            | nil => rw [hsplit] at hs; cases hs; simp [trimLeft, List.dropWhile, hsp]
            | cons p ps =>
              rw [hsplit] at hs
              cases hs
              simp [trimLeft, List.dropWhile, hsp]
        rw [hh]

theorem splitOnChar_snoc (s : GoStr) (c : Char) (hc : c ≠ ',') :
    ∃ ps last, splitOnChar ',' s = ps ++ [last] ∧
      splitOnChar ',' (s ++ [c]) = ps ++ [last ++ [c]] := by
  induction s with
  | nil =>
    refine ⟨[], [], rfl, ?_⟩
    simp [splitOnChar, hc]
  | cons a s' ih =>
    obtain ⟨ps, last, h1, h2⟩ := ih
    by_cases ha : a = ','
    · subst ha
      refine ⟨[] :: ps, last, ?_, ?_⟩
      · simp [splitOnChar, h1]
      · simp [splitOnChar, h2]
    · cases ps with
      | nil =>
        simp only [List.nil_append] at h1 h2
        refine ⟨[], a :: last, ?_, ?_⟩
        · simp [splitOnChar, ha, h1]
        · simp [splitOnChar, ha, h2]
      | cons q qt =>
        refine ⟨(a :: q) :: qt, last, ?_, ?_⟩
        · simp [splitOnChar, ha, h1]
        · simp [splitOnChar, ha, h2]

theorem collectTags_append (xs ys : List GoStr) :
    collectTags (xs ++ ys) = collectTags xs ++ collectTags ys := by
  simp [collectTags_eq, List.filter_append]

theorem trimRight_snoc_space (u : GoStr) {c : Char} (hc : isGoSpace c = true) :
    trimRight (u ++ [c]) = trimRight u := by
  unfold trimRight
  rw [List.reverse_append]
  simp [List.dropWhile, hc]

theorem trimSpace_snoc_space (y : GoStr) {c : Char} (hc : isGoSpace c = true) :
    trimSpace (y ++ [c]) = trimSpace y := by
  unfold trimSpace
  by_cases h : trimLeft y = []
  · have h1 : trimLeft (y ++ [c]) = [] := by
      unfold trimLeft at h ⊢
      rw [List.dropWhile_append, h]
      simp [List.dropWhile, hc]
    rw [h1, h]
  · have h1 : trimLeft (y ++ [c]) = trimLeft y ++ [c] := by
      unfold trimLeft at h ⊢
      rw [List.dropWhile_append]
      simp [h]
    rw [h1, trimRight_snoc_space _ hc]

theorem collectTags_split_snoc_space (s : GoStr) {c : Char}
    (hc : isGoSpace c = true) :
    collectTags (splitOnChar ',' (s ++ [c])) =
      collectTags (splitOnChar ',' s) := by
  obtain ⟨ps, last, h1, h2⟩ := splitOnChar_snoc s c (space_ne_comma hc)
  rw [h1, h2, collectTags_append, collectTags_append]
  have : collectTags [last ++ [c]] = collectTags [last] := by
    simp only [collectTags, trimSpace_snoc_space last hc]
  rw [this]

theorem collectTags_split_spaces (sp : List Char)
    (hsp : ∀ c ∈ sp, isGoSpace c = true) :
    ∀ s, collectTags (splitOnChar ',' (s ++ sp)) =
      collectTags (splitOnChar ',' s) := by
  induction sp with
  | nil => intro s; simp
  | cons c sp' ih =>
    intro s
    have : s ++ c :: sp' = (s ++ [c]) ++ sp' := by simp
    rw [this, ih (fun x hx => hsp x (by simp [hx])) (s ++ [c]),
      collectTags_split_snoc_space s (hsp c (by simp))]

theorem trimRight_decomp (s : GoStr) :
    ∃ sp, s = trimRight s ++ sp ∧ ∀ c ∈ sp, isGoSpace c = true := by
  refine ⟨(s.reverse.takeWhile isGoSpace).reverse, ?_, ?_⟩
  · unfold trimRight
    conv_lhs =>
      rw [← List.reverse_reverse s,
        ← List.takeWhile_append_dropWhile (p := isGoSpace) (l := s.reverse)]
    rw [List.reverse_append]
  · intro c hc
    rw [List.mem_reverse] at hc
    exact List.mem_takeWhile_imp hc

theorem collectTags_split_trim (s : GoStr) :
    collectTags (splitOnChar ',' (trimSpace s)) =
      collectTags (splitOnChar ',' s) := by
  unfold trimSpace
  obtain ⟨sp, hdec, hsp⟩ := trimRight_decomp (trimLeft s)
  have step1 : collectTags (splitOnChar ',' (trimRight (trimLeft s))) =
      collectTags (splitOnChar ',' (trimLeft s)) := by
    conv_rhs => rw [hdec]
    rw [collectTags_split_spaces sp hsp]
  rw [step1]
  obtain ⟨h, t, h1, h2⟩ := splitOnChar_trimLeft s
  rw [h1, h2, collectTags_congrHead (trimLeft h) h t (trimSpace_trimLeft h)]

/-- C6: `NewNote` stores as tags exactly the comma-split, per-piece
trimmed, empty-filtered, order-preserving sequence, always present
(`some`, never the nil slice); `"a, , b ,"` gives `["a","b"]` and `""`
gives the present empty sequence; and the `- Tags:` branch of `LoadNote`
(which first trims the whole remainder) computes the same rule. -/
theorem c6_tags :
    (∀ (cat raw file title : GoStr) (cfg : Config) (now : GoTime) (n : Note),
      NewNote cat raw file title cfg now = .ok n →
      n.tags = some (tagsRule raw)) ∧
    tagsRule (gs "a, , b ,") = [gs "a", gs "b"] ∧
    tagsRule [] = [] ∧
    (∀ s : GoStr, collectTags (splitOnChar ',' (trimSpace s)) = tagsRule s) := by
  refine ⟨?_, by decide, by decide, ?_⟩
  · intro cat raw file title cfg now n h
    unfold NewNote at h
    split at h
    · cases h
    · split at h
      · cases h
      · cases h
        simp only [tagsRule, ← collectTags_eq]
  · intro s
    rw [collectTags_split_trim s, collectTags_eq, tagsRule]

/-- Witness for C6 at the spec's example inputs. -/
theorem c6_tags_witness :
    (NewNote (gs "c") (gs "a, , b ,") (gs "f") [] wCfg wTime =
      .ok ⟨wCfg, gs "c", some [gs "a", gs "b"], wTime, gs "f.md", []⟩) ∧
    (⟨wCfg, gs "c", some [gs "a", gs "b"], wTime, gs "f.md", []⟩ : Note).tags =
      some (tagsRule (gs "a, , b ,")) ∧
    collectTags (splitOnChar ',' (trimSpace (gs " a , b "))) =
      tagsRule (gs " a , b ") :=
  ⟨by decide,
    c6_tags.1 (gs "c") (gs "a, , b ,") (gs "f") [] wCfg wTime _ (by decide),
    c6_tags.2.2.2 (gs " a , b ")⟩

/-! ## C9 -/

mutual
theorem walkNode_visits (cfg : Config) (pred : GoStr → Note → Except GoStr Unit)
    (p iname : GoStr) (segs : List GoStr) (t : FTree)
    (hseg : gs ".git" ∉ segs.dropLast)
    (halign : segs = [] ∨ segs.getLast? = some iname) :
    ∀ v ∈ (walkNode cfg pred p iname segs t).2,
      (gs ".md").isSuffixOf v.path = true ∧ gs ".git" ∉ v.segs.dropLast := by
  intro v hv
  cases t with
  | file name content =>
    by_cases hsuf : (gs ".md").isSuffixOf p = true
    · simp only [walkNode, hsuf, if_true] at hv
      cases hload : loadNoteLines p cfg (scanTokens content) with
      | error e => simp [hload] at hv
      | ok n =>
        simp only [hload] at hv
        cases hpred : pred p n with
        | error m =>
          simp only [hpred, List.mem_singleton] at hv
          subst hv
          exact ⟨hsuf, hseg⟩
        | ok u =>
          cases u
          simp only [hpred, List.mem_singleton] at hv
          subst hv
          exact ⟨hsuf, hseg⟩
    · simp [walkNode, hsuf] at hv
  | dir name entries =>
    by_cases hgit : iname = gs ".git"
    · simp [walkNode, hgit] at hv
    · simp only [walkNode, hgit, if_false] at hv
      have hseg2 : gs ".git" ∉ segs := by
        rcases halign with h | h
        · subst h; simp
        · intro hmem
          have hne : segs ≠ [] := by
            intro hnil; rw [hnil] at h; simp at h
          rw [← List.dropLast_append_getLast hne] at hmem
          rcases List.mem_append.mp hmem with hm | hm
          · exact hseg hm
          · rw [List.getLast?_eq_getLast segs hne] at h
            cases h
            simp only [List.mem_singleton] at hm
            exact hgit hm.symm
      exact walkForest_visits cfg pred p segs entries hseg2 v hv

theorem walkForest_visits (cfg : Config)
    (pred : GoStr → Note → Except GoStr Unit)
    (p : GoStr) (segs : List GoStr) (ts : FForest)
    (hseg : gs ".git" ∉ segs) :
    ∀ v ∈ (walkForest cfg pred p segs ts).2,
      (gs ".md").isSuffixOf v.path = true ∧ gs ".git" ∉ v.segs.dropLast := by
  intro v hv
  cases ts with
  | nil => simp [walkForest] at hv
  | cons t rest =>
    have hchild : gs ".git" ∉ (segs ++ [t.name]).dropLast := by
      rw [List.dropLast_concat]
      exact hseg
    have halign : segs ++ [t.name] = [] ∨
        (segs ++ [t.name]).getLast? = some t.name := by
      right
      simp
    simp only [walkForest] at hv
    cases hc : walkNode cfg pred (goJoinPath p t.name) t.name
        (segs ++ [t.name]) t with
    | mk res vs =>
      rw [hc] at hv
      cases res with
      | error e =>
        simp only at hv
        exact walkNode_visits cfg pred (goJoinPath p t.name) t.name
          (segs ++ [t.name]) t hchild halign v (by rw [hc]; exact hv)
      | ok u =>
        cases u
        simp only [List.mem_append] at hv
        rcases hv with hv | hv
        · exact walkNode_visits cfg pred (goJoinPath p t.name) t.name
            (segs ++ [t.name]) t hchild halign v (by rw [hc]; exact hv)
        · exact walkForest_visits cfg pred p segs rest hseg v hv
end

/-- C9: `WalkNotes` invokes the visitor only on files whose path ends in
the note extension `.md`, and never on a file lying below a directory
named exactly `.git` (such directories are not descended into): every
recorded visit's path has the `.md` suffix and its directory segments
below the walk root contain no `.git` component. -/
theorem c9_walk_skip (rootPath : GoStr) (tree : FTree) (cfg : Config)
    (pred : GoStr → Note → Except GoStr Unit) :
    ∀ v ∈ (WalkNotes rootPath tree cfg pred).2,
      (gs ".md").isSuffixOf v.path = true ∧ gs ".git" ∉ v.segs.dropLast := by
  intro v hv
  exact walkNode_visits cfg pred rootPath (goFilepathBase rootPath) [] tree
    (by simp) (Or.inl rfl) v hv

/-- Witness for C9: walking `wTree` (which contains a `.git` directory
holding a `.md` file and a non-`.md` file) visits exactly the one real
note, and the theorem's conclusions hold for it. -/
theorem c9_walk_skip_witness :
    (WalkNotes (gs "store") wTree wCfg wPred).2 = [wVisit] ∧
    wVisit ∈ (WalkNotes (gs "store") wTree wCfg wPred).2 ∧
    ((gs ".md").isSuffixOf wVisit.path = true ∧
      gs ".git" ∉ wVisit.segs.dropLast) :=
  ⟨by decide, by decide,
    c9_walk_skip (gs "store") wTree wCfg wPred wVisit (by decide)⟩

/-! ## C7 and C8 -/

theorem readBytesNl_lt :
    ∀ (data tk rest : List Nat), readBytesNl data = (tk, rest, false) →
      rest.length < data.length := by
  intro data
  induction data with
  | nil => intro tk rest h; simp [readBytesNl] at h
  | cons b r ih =>
    intro tk rest h
    by_cases hb : b = 10
    · simp only [readBytesNl, hb, if_true, Prod.mk.injEq] at h
      obtain ⟨-, h2, -⟩ := h
      subst h2
      simp
    · rcases hr : readBytesNl r with ⟨tk2, rest2, e2⟩
      simp only [readBytesNl, hb, if_false, hr, Prod.mk.injEq] at h
      obtain ⟨-, h2, h3⟩ := h
      subst h2
      subst h3
      have := ih tk2 _ hr
      simp only [List.length_cons]
      omega

theorem scanAllMarkers_all_true :
    ∀ (fuel : Nat) (data : List Nat),
      scanAllMarkers fuel true true true data = true := by
  intro fuel
  induction fuel with
  | zero => intro data; rfl
  | succ f ih =>
    intro data
    rcases hrb : readBytesNl data with ⟨tk, rest, hitEnd⟩
    simp only [scanAllMarkers, hrb, Bool.true_or, Bool.and_self]
    split
    · rfl
    · exact ih rest

theorem metaLoop_ok_iff (relPath : GoStr) :
    ∀ (fuel : Nat) (data : List Nat) (c t r : Bool), data.length < fuel →
      ((∃ rest, metaLoop relPath fuel c t r data = .ok rest) ↔
        scanAllMarkers fuel c t r data = true) := by
  intro fuel
  induction fuel with
  | zero => intro data c t r h; omega
  | succ f ih =>
    intro data c t r hlt
    rcases hrb : readBytesNl data with ⟨tk, rest, hitEnd⟩
    simp only [metaLoop, scanAllMarkers, hrb]
    by_cases hall :
        ((c || (asciiBytes "- Category: ").isPrefixOf tk) &&
         ((t || (asciiBytes "- Tags:").isPrefixOf tk) &&
          (r || (asciiBytes "- Created: ").isPrefixOf tk))) = true
    · obtain ⟨h1, h2, h3⟩ := by
        have := hall
        simp only [Bool.and_eq_true] at this
        exact this
      rw [h1, h2, h3]
      simp only [Bool.and_self, if_true]
      constructor
      · intro _
        split
        · rfl
        · exact scanAllMarkers_all_true f rest
      · intro _
        exact ⟨rest, rfl⟩
    · have hol : ((c || (asciiBytes "- Category: ").isPrefixOf tk) &&
          (t || (asciiBytes "- Tags:").isPrefixOf tk) &&
          (r || (asciiBytes "- Created: ").isPrefixOf tk)) = false := by
        rw [Bool.eq_false_iff]
        intro hx
        apply hall
        simp only [Bool.and_eq_true] at hx ⊢
        exact ⟨hx.1.1, hx.1.2, hx.2⟩
      rw [hol]
      simp only [Bool.false_eq_true, if_false]
      cases hitEnd with
      | true => simp
      | false =>
        have hrest : rest.length < f := by
          have := readBytesNl_lt data tk rest hrb
          omega
        exact ih rest _ _ _ hrest

/-- C7 (amended): `ReadBodyN` fails exactly when the metadata-skip loop
reaches the end of the stream before all three markers have been
observed, or when the stream ends in a failure other than `io.EOF`, the
first retained line does not already exhaust the byte budget, and the
remaining budget strictly exceeds the bytes left after that line (so
the bounded copy actually runs into the failing end).  A non-EOF
failure swallowed by the blank-line skip with nothing left to copy does
not surface, and plain end-of-stream after the metadata block is never
an error. -/
theorem c7_readbody_error_iff (s : ByteStream) (maxBytes : Int)
    (relPath : GoStr) (h0 : 0 ≤ maxBytes) :
    (∃ e, ReadBodyN maxBytes s relPath = .error e) ↔
      (scanAllMarkers (s.data.length + 1) false false false s.data = false ∨
       ∃ rest,
         metaLoop relPath (s.data.length + 1) false false false s.data =
           .ok rest ∧
         s.errAtEnd = true ∧
         ((skipBlank (rest.length + 1) rest).1.length : Int) ≤ maxBytes ∧
         maxBytes - ((skipBlank (rest.length + 1) rest).1.length : Int) >
           ((skipBlank (rest.length + 1) rest).2.length : Int)) := by
  cases hm : metaLoop relPath (s.data.length + 1) false false false s.data with
  | error e =>
    have hscan : scanAllMarkers (s.data.length + 1) false false false
        s.data = false := by
      rw [Bool.eq_false_iff]
      intro htrue
      obtain ⟨rest, hrest⟩ :=
        (metaLoop_ok_iff relPath (s.data.length + 1) s.data false false false
          (by omega)).mpr htrue
      rw [hm] at hrest
      cases hrest
    exact iff_of_true ⟨e, by simp [ReadBodyN, hm]⟩ (Or.inl hscan)
  | ok rest =>
    have hscan : scanAllMarkers (s.data.length + 1) false false false
        s.data = true :=
      (metaLoop_ok_iff relPath (s.data.length + 1) s.data false false false
        (by omega)).mp ⟨rest, hm⟩
    rcases hsb : skipBlank (rest.length + 1) rest with ⟨buf, rest2⟩
    by_cases hbig : (buf.length : Int) > maxBytes
    · apply iff_of_false
      · rintro ⟨e, he⟩
        simp only [ReadBodyN, hm, hsb, hbig, if_true] at he
        cases he
      · rintro (hl | ⟨rest', hr', -, hle, -⟩)
        · rw [hscan] at hl; cases hl
        · injection hr' with hh
          subst hh
          rw [hsb] at hle
          simp only at hle
          omega
    · by_cases hcopy :
          maxBytes - (buf.length : Int) > (rest2.length : Int) ∧
            s.errAtEnd = true
      · apply iff_of_true
        · refine ⟨.ioCopy, ?_⟩
          simp only [ReadBodyN, hm, hsb, hbig, if_false]
          rw [if_pos hcopy]
        · refine Or.inr ⟨rest, rfl, hcopy.2, ?_, ?_⟩
          · rw [hsb]; simp only; omega
          · rw [hsb]; simp only; exact hcopy.1
      · apply iff_of_false
        · rintro ⟨e, he⟩
          simp only [ReadBodyN, hm, hsb, hbig, if_false] at he
          rw [if_neg hcopy] at he
          cases he
        · rintro (hl | ⟨rest', hr', herr, hle, hgt⟩)
          · rw [hscan] at hl; cases hl
          · injection hr' with hh
            subst hh
            rw [hsb] at hle hgt
            simp only at hle hgt
            exact hcopy ⟨hgt, herr⟩

/-- Witness for C7: at a stream failing non-EOF right after the
metadata with budget 5, the theorem yields the error characterization
(the error is the bounded-copy failure). -/
theorem c7_readbody_error_iff_witness :
    (0 : Int) ≤ 5 ∧
    (scanAllMarkers (cexErrStream.data.length + 1) false false false
        cexErrStream.data = false ∨
     ∃ rest,
       metaLoop [] (cexErrStream.data.length + 1) false false false
         cexErrStream.data = .ok rest ∧
       cexErrStream.errAtEnd = true ∧
       ((skipBlank (rest.length + 1) rest).1.length : Int) ≤ 5 ∧
       (5 : Int) - ((skipBlank (rest.length + 1) rest).1.length : Int) >
         ((skipBlank (rest.length + 1) rest).2.length : Int)) :=
  ⟨by decide,
    (c7_readbody_error_iff cexErrStream 5 [] (by decide)).mp
      ⟨.ioCopy, by decide⟩⟩

/-- Counterexample to C7 as stated: the metadata block completes, the
stream then reports a failure other than `io.EOF` to the blank-line
skip (which discards it), and with a zero budget the bounded copy never
re-reads, so `ReadBodyN` succeeds even though a non-EOF read failure
occurred after the metadata block. -/
theorem c7_counterexample :
    ReadBodyN 0 cexErrStream [] = .ok [] ∧
    metaLoop [] (cexErrStream.data.length + 1) false false false
      cexErrStream.data = .ok [] ∧
    cexErrStream.errAtEnd = true := by
  refine ⟨by decide, by decide, rfl⟩

theorem readBytesNl_cons10 (x : List Nat) :
    readBytesNl (10 :: x) = ([10], x, false) := by
  simp [readBytesNl]

theorem readBytesNl_line (Lp : List Nat) (rest2 : List Nat)
    (hLp : 10 ∉ Lp) :
    readBytesNl (Lp ++ 10 :: rest2) = (Lp ++ [10], rest2, false) := by
  induction Lp with
  | nil => simp [readBytesNl]
  | cons b r ih =>
    have hb : b ≠ 10 := by intro hb; exact hLp (by simp [hb])
    have ihh := ih (fun hm => hLp (by simp [hm]))
    simp [readBytesNl, hb, ihh]

theorem skipBlank_spec (Lp rest2 : List Nat) (hLp : 10 ∉ Lp)
    (hne : Lp ≠ []) :
    ∀ (k fuel : Nat), k < fuel →
      skipBlank fuel (List.replicate k 10 ++ (Lp ++ [10]) ++ rest2) =
        (Lp ++ [10], rest2) := by
  intro k
  induction k with
  | zero =>
    intro fuel hf
    cases fuel with
    | zero => omega
    | succ f =>
      have hr : (List.replicate 0 10 ++ (Lp ++ [10]) ++ rest2) =
          Lp ++ 10 :: rest2 := by simp
      rw [hr]
      simp only [skipBlank, readBytesNl_line Lp rest2 hLp]
      have hlen : (Lp ++ [10]).length > 1 := by
        cases Lp with
        | nil => exact absurd rfl hne
        | cons a t => simp
      rw [if_neg (by simp), if_pos hlen]
  | succ j ih =>
    intro fuel hf
    cases fuel with
    | zero => omega
    | succ f =>
      have hr : (List.replicate (j + 1) 10 ++ (Lp ++ [10]) ++ rest2) =
          10 :: (List.replicate j 10 ++ (Lp ++ [10]) ++ rest2) := by
        simp [List.replicate_succ]
      rw [hr]
      simp only [skipBlank, readBytesNl_cons10]
      rw [if_neg (by simp), if_neg (by simp)]
      exact ih f (by omega)

/-- C8 (amended): for a non-negative budget and a plain-EOF stream
whose metadata block completes and is followed by `k` blank lines and
then a newline-terminated first non-blank line, `ReadBodyN` returns
exactly the first `maxBytes` bytes of that line when the line exceeds
the budget, and otherwise the line followed by at most the remaining
budget of further bytes; the result never exceeds `maxBytes` bytes. -/
theorem c8_body_bounds (s : ByteStream) (maxBytes : Int) (relPath : GoStr)
    (h0 : 0 ≤ maxBytes) (herr : s.errAtEnd = false)
    (rest Lp rest2 : List Nat) (k : Nat)
    (hmeta : metaLoop relPath (s.data.length + 1) false false false s.data =
      .ok rest)
    (hdec : rest = List.replicate k 10 ++ (Lp ++ [10]) ++ rest2)
    (hLp : 10 ∉ Lp) (hne : Lp ≠ []) :
    ReadBodyN maxBytes s relPath =
      (if ((Lp ++ [10]).length : Int) > maxBytes then
        .ok ((Lp ++ [10]).take maxBytes.toNat)
      else .ok ((Lp ++ [10]) ++
        rest2.take (maxBytes - ((Lp ++ [10]).length : Int)).toNat)) ∧
    (∀ out, ReadBodyN maxBytes s relPath = .ok out →
      (out.length : Int) ≤ maxBytes) := by
  have hsb : skipBlank (rest.length + 1) rest = (Lp ++ [10], rest2) := by
    conv_lhs => rw [hdec]
    exact skipBlank_spec Lp rest2 hLp hne k _
      (by simp only [List.length_append, List.length_replicate]; omega)
  have hmain : ReadBodyN maxBytes s relPath =
      (if ((Lp ++ [10]).length : Int) > maxBytes then
        .ok ((Lp ++ [10]).take maxBytes.toNat)
      else .ok ((Lp ++ [10]) ++
        rest2.take (maxBytes - ((Lp ++ [10]).length : Int)).toNat)) := by
    simp only [ReadBodyN, hmeta, hsb]
    by_cases hbig : ((Lp ++ [10]).length : Int) > maxBytes
    · rw [if_pos hbig, if_pos hbig]
    · rw [if_neg hbig, if_neg hbig,
        if_neg (fun hc => by rw [herr] at hc; exact Bool.noConfusion hc.2)]
  refine ⟨hmain, ?_⟩
  intro out hout
  rw [hmain] at hout
  by_cases hbig : ((Lp ++ [10]).length : Int) > maxBytes
  · rw [if_pos hbig] at hout
    injection hout with hh
    subst hh
    rw [List.length_take]
    have ht := Int.toNat_of_nonneg h0
    omega
  · rw [if_neg hbig] at hout
    injection hout with hh
    subst hh
    rw [List.length_append, List.length_take]
    have ht : 0 ≤ maxBytes - ((Lp ++ [10]).length : Int) := by omega
    have ht2 := Int.toNat_of_nonneg ht
    omega

/-- Witness for C8 at a concrete file whose body is
`Body line\nmore` and budget 5: the result is the first five bytes of
the first body line. -/
theorem c8_body_bounds_witness :
    (0 : Int) ≤ 5 ∧ wBodyStream.errAtEnd = false ∧
    (metaLoop [] (wBodyStream.data.length + 1) false false false
      wBodyStream.data = .ok (asciiBytes "\nBody line\nmore")) ∧
    (asciiBytes "\nBody line\nmore" =
      List.replicate 1 10 ++ (asciiBytes "Body line" ++ [10]) ++
        asciiBytes "more") ∧
    (ReadBodyN 5 wBodyStream [] =
      if (((asciiBytes "Body line" ++ [10]).length : Int)) > 5 then
        .ok ((asciiBytes "Body line" ++ [10]).take (5 : Int).toNat)
      else .ok ((asciiBytes "Body line" ++ [10]) ++
        (asciiBytes "more").take
          ((5 : Int) - (((asciiBytes "Body line" ++ [10]).length : Int))).toNat)) :=
  ⟨by decide, rfl, by decide, by decide,
    (c8_body_bounds wBodyStream 5 [] (by decide) rfl
      (asciiBytes "\nBody line\nmore") (asciiBytes "Body line")
      (asciiBytes "more") 1 (by decide) (by decide) (by decide)
      (by decide)).1⟩

/-- Counterexample to C8 as stated: the first non-blank line after the
metadata block is `BODY`, the budget 100 is ample, yet `ReadBodyN`
returns the empty string rather than a string starting with that line,
because the line is not newline-terminated and the blank-skip loop
discards data returned together with `io.EOF`. -/
theorem c8_counterexample :
    cexNoNlStream.data = wMetaBytes ++ asciiBytes "BODY" ∧
    ReadBodyN 100 cexNoNlStream [] = .ok [] ∧
    (Except.ok ([] : List Nat) : Except NoteError (List Nat)) ≠
      .ok (asciiBytes "BODY") := by
  refine ⟨rfl, by decide, by decide⟩

/-! ## C1: RFC3339 round trip -/

theorem digitVal_digitC (d : Nat) (h : d ≤ 9) :
    digitVal (digitC d) = some d := by
  interval_cases d <;> decide

theorem parse2_pad2 (n : Nat) (h : n ≤ 99) (r : GoStr) :
    parse2 (pad2 n ++ r) = some (n, r) := by
  have h1 : n / 10 ≤ 9 := by omega
  have h2 : n % 10 ≤ 9 := by omega
  simp only [pad2, List.cons_append, List.nil_append, parse2,
    digitVal_digitC _ h1, digitVal_digitC _ h2, Option.some.injEq,
    Prod.mk.injEq]
  exact ⟨by omega, trivial⟩

theorem parse4_pad4 (n : Nat) (h : n ≤ 9999) (r : GoStr) :
    parse4 (pad4 n ++ r) = some (n, r) := by
  have h1 : n / 100 ≤ 99 := by omega
  have h2 : n % 100 ≤ 99 := by omega
  rw [pad4, List.append_assoc]
  simp only [parse4, parse2_pad2 _ h1, parse2_pad2 _ h2, Option.bind_eq_bind,
    Option.some_bind, Option.some.injEq, Prod.mk.injEq]
  exact ⟨by omega, trivial⟩

theorem expectC_cons (c : Char) (r : GoStr) : expectC c (c :: r) = some r := by
  simp [expectC]

theorem pad2_append_nil (n : Nat) : pad2 n = pad2 n ++ [] := by simp

theorem parseZone_format (off : Int) (h : off.natAbs ≤ 23 * 60 + 59) :
    parseZone (if off = 0 then ['Z']
      else (if off > 0 then '+' else '-') ::
        (pad2 (off.natAbs / 60) ++ ':' :: pad2 (off.natAbs % 60))) =
      some off := by
  by_cases h0 : off = 0
  · subst h0
    simp [parseZone]
  · rw [if_neg h0]
    have hh : off.natAbs / 60 ≤ 23 := by omega
    have hm : off.natAbs % 60 ≤ 59 := by omega
    by_cases hpos : off > 0
    · rw [if_pos hpos]
      simp only [parseZone, parseZone.parseZoneOff, Option.bind_eq_bind]
      rw [parse2_pad2 _ (by omega : off.natAbs / 60 ≤ 99)]
      simp only [Option.some_bind, expectC_cons]
      rw [pad2_append_nil (off.natAbs % 60),
        parse2_pad2 _ (by omega : off.natAbs % 60 ≤ 99)]
      simp only [Option.some_bind]
      rw [if_pos ⟨trivial, hh, hm⟩]
      congr 1
      omega
    · rw [if_neg hpos]
      simp only [parseZone, parseZone.parseZoneOff, Option.bind_eq_bind]
      rw [parse2_pad2 _ (by omega : off.natAbs / 60 ≤ 99)]
      simp only [Option.some_bind, expectC_cons]
      rw [pad2_append_nil (off.natAbs % 60),
        parse2_pad2 _ (by omega : off.natAbs % 60 ≤ 99)]
      simp only [Option.some_bind]
      rw [if_pos ⟨trivial, hh, hm⟩]
      congr 1
      omega

theorem daysIn_le (mo y : Nat) : daysIn mo y ≤ 31 := by
  unfold daysIn
  split
  · split <;> omega
  · split <;> omega

theorem parseRFC3339_format (t : GoTime) (h : validGoTime t) :
    parseRFC3339 (formatRFC3339 t) = some t := by
  obtain ⟨hy1, hy2, hm1, hm2, hd1, hd2, hh, hmi, hs, ho⟩ := h
  simp only [formatRFC3339, parseRFC3339, Option.bind_eq_bind,
    List.append_assoc, List.cons_append]
  rw [parse4_pad4 t.year hy2]
  simp only [Option.some_bind, expectC_cons]
  rw [parse2_pad2 t.month (by omega)]
  simp only [Option.some_bind, expectC_cons]
  rw [parse2_pad2 t.day (by have := daysIn_le t.month t.year; omega)]
  simp only [Option.some_bind, expectC_cons]
  rw [parse2_pad2 t.hour (by omega)]
  simp only [Option.some_bind, expectC_cons]
  rw [parse2_pad2 t.minute (by omega)]
  simp only [Option.some_bind, expectC_cons]
  rw [parse2_pad2 t.sec (by omega)]
  simp only [Option.some_bind]
  rw [parseZone_format t.offMin ho]
  simp only [Option.some_bind]
  rw [if_pos ⟨hm1, hm2, hd1, hd2, hh, hmi, hs⟩]

/-! ## C1: character-class facts about the rendered lines -/

theorem digitC_no_space (d : Nat) (h : d ≤ 9) :
    isGoSpace (digitC d) = false := by
  interval_cases d <;> decide

theorem no_space_append {a b : GoStr}
    (ha : ∀ c ∈ a, isGoSpace c = false) (hb : ∀ c ∈ b, isGoSpace c = false) :
    ∀ c ∈ a ++ b, isGoSpace c = false := by
  intro c hc
  rcases List.mem_append.mp hc with h | h
  · exact ha c h
  · exact hb c h

theorem no_space_cons {x : Char} {b : GoStr} (hx : isGoSpace x = false)
    (hb : ∀ c ∈ b, isGoSpace c = false) :
    ∀ c ∈ x :: b, isGoSpace c = false := by
  intro c hc
  rcases List.mem_cons.mp hc with h | h
  · subst h; exact hx
  · exact hb c h

theorem pad2_no_space (n : Nat) (h : n ≤ 99) :
    ∀ c ∈ pad2 n, isGoSpace c = false := by
  intro c hc
  simp only [pad2, List.mem_cons, List.not_mem_nil, or_false] at hc
  rcases hc with h1 | h1 <;> subst h1
  · exact digitC_no_space _ (by omega)
  · exact digitC_no_space _ (by omega)

theorem format_no_space (t : GoTime) (h : validGoTime t) :
    ∀ c ∈ formatRFC3339 t, isGoSpace c = false := by
  obtain ⟨hy1, hy2, hm1, hm2, hd1, hd2, hh, hmi, hs, ho⟩ := h
  have hdl := daysIn_le t.month t.year
  simp only [formatRFC3339, pad4, List.append_assoc, List.cons_append]
  refine no_space_append (pad2_no_space _ (by omega)) ?_
  refine no_space_append (pad2_no_space _ (by omega)) ?_
  refine no_space_cons (by decide) ?_
  refine no_space_append (pad2_no_space _ (by omega)) ?_
  refine no_space_cons (by decide) ?_
  refine no_space_append (pad2_no_space _ (by omega)) ?_
  refine no_space_cons (by decide) ?_
  refine no_space_append (pad2_no_space _ (by omega)) ?_
  refine no_space_cons (by decide) ?_
  refine no_space_append (pad2_no_space _ (by omega)) ?_
  refine no_space_cons (by decide) ?_
  refine no_space_append (pad2_no_space _ (by omega)) ?_
  by_cases h0 : t.offMin = 0
  · rw [if_pos h0]
    intro c hc
    simp only [List.mem_singleton] at hc
    subst hc
    decide
  · rw [if_neg h0]
    refine no_space_cons ?_ (no_space_append (pad2_no_space _ (by omega))
      (no_space_cons (by decide) (pad2_no_space _ (by omega))))
    split <;> decide

theorem dropWhile_all_false {p : Char → Bool} {s : GoStr}
    (h : ∀ c ∈ s, p c = false) : s.dropWhile p = s := by
  cases s with
  | nil => rfl
  | cons a t =>
    simp only [List.dropWhile, h a (by simp), Bool.false_eq_true, if_false]

theorem trimSpace_no_space {s : GoStr}
    (h : ∀ c ∈ s, isGoSpace c = false) : trimSpace s = s := by
  unfold trimSpace trimLeft trimRight
  rw [dropWhile_all_false h,
    dropWhile_all_false (fun c hc => h c (List.mem_reverse.mp hc)),
    List.reverse_reverse]

/-! ## C1: trimming, splitting and joining facts -/

theorem dropWhile_eq_self_head {p : Char → Bool} {s : GoStr}
    (h : s.dropWhile p = s) : ∀ c, s.head? = some c → p c = false := by
  intro c hc
  cases s with
  | nil => simp at hc
  | cons a t =>
    have hac : a = c := by simpa using hc
    subst hac
    by_cases hp : p a = true
    · simp only [List.dropWhile, hp, if_true] at h
      have h1 := (List.dropWhile_sublist (l := t) p).length_le
      have h2 := congrArg List.length h
      simp only [List.length_cons] at h2
      omega
    · exact Bool.not_eq_true _ |>.mp hp

theorem trimLeft_idem (s : GoStr) : trimLeft (trimLeft s) = trimLeft s :=
  dropWhile_idem _ _

theorem trimRight_idem (s : GoStr) : trimRight (trimRight s) = trimRight s := by
  unfold trimRight
  rw [List.reverse_reverse, dropWhile_idem]

theorem trimLeft_trimRight (u : GoStr) (hu : trimLeft u = u) :
    trimLeft (trimRight u) = trimRight u := by
  cases hr : trimRight u with
  | nil => rfl
  | cons a t =>
    have hpre : ∃ k, u = trimRight u ++ k := by
      obtain ⟨sp, hd, -⟩ := trimRight_decomp u
      exact ⟨sp, hd⟩
    obtain ⟨k, hk⟩ := hpre
    rw [hr] at hk
    have hhead : u.head? = some a := by rw [hk]; rfl
    have ha : isGoSpace a = false := dropWhile_eq_self_head hu a hhead
    simp only [trimLeft, List.dropWhile, ha, Bool.false_eq_true, if_false]

theorem trimSpace_idem (s : GoStr) : trimSpace (trimSpace s) = trimSpace s := by
  unfold trimSpace
  rw [trimLeft_trimRight (trimLeft s) (trimLeft_idem s), trimRight_idem]

theorem length_trimRight (u : GoStr) : (trimRight u).length ≤ u.length := by
  unfold trimRight
  rw [List.length_reverse]
  have := (List.dropWhile_sublist (l := u.reverse) isGoSpace).length_le
  rw [List.length_reverse] at this
  exact this

theorem trimmed_getLast_ne_cr {s : GoStr} (h : trimSpace s = s) :
    s.getLast? ≠ some '\r' := by
  intro hcr
  have h1 : (trimLeft s).length ≤ s.length :=
    (List.dropWhile_sublist (l := s) isGoSpace).length_le
  have h2 := length_trimRight (trimLeft s)
  have h3 : trimLeft s = s := by
    have hlen : (trimLeft s).length = s.length := by
      have h0 := congrArg List.length h
      unfold trimSpace at h0
      omega
    exact (List.dropWhile_suffix isGoSpace).eq_of_length hlen
  have h4 : trimRight s = s := by
    unfold trimSpace at h
    rw [h3] at h
    exact h
  have h5 : s.reverse.dropWhile isGoSpace = s.reverse := by
    have := congrArg List.reverse h4
    unfold trimRight at this
    rw [List.reverse_reverse] at this
    exact this
  have hrev : s.reverse.head? = some '\r' := by
    rw [List.head?_reverse]
    exact hcr
  have := dropWhile_eq_self_head h5 '\r' hrev
  exact absurd this (by decide)

theorem mem_of_mem_splitOnChar {sep : Char} :
    ∀ {s p : GoStr}, p ∈ splitOnChar sep s → ∀ {x}, x ∈ p → x ∈ s := by
  intro s
  induction s with
  | nil =>
    intro p hp x hx
    simp only [splitOnChar, List.mem_singleton] at hp
    subst hp
    simp at hx
  | cons c r ih =>
    intro p hp x hx
    by_cases hc : c = sep
    · simp only [splitOnChar, hc, if_true, List.mem_cons] at hp
      rcases hp with hp | hp
      · subst hp; simp at hx
      · exact List.mem_cons_of_mem _ (ih hp hx)
    · simp only [splitOnChar, hc, if_false] at hp
      cases hs : splitOnChar sep r with
      | nil => exact absurd hs (splitOnChar_ne_nil sep r)
      | cons hh tt =>
        rw [hs] at hp
        simp only [List.mem_cons] at hp
        rcases hp with hp | hp
        · subst hp
          rcases List.mem_cons.mp hx with hx | hx
          · subst hx; simp
          · exact List.mem_cons_of_mem _ (ih (hs ▸ List.mem_cons_self hh tt) hx)
        · exact List.mem_cons_of_mem _ (ih (hs ▸ List.mem_cons_of_mem hh hp) hx)

theorem sep_not_mem_splitOnChar {sep : Char} :
    ∀ {s p : GoStr}, p ∈ splitOnChar sep s → sep ∉ p := by
  intro s
  induction s with
  | nil =>
    intro p hp
    simp only [splitOnChar, List.mem_singleton] at hp
    subst hp
    simp
  | cons c r ih =>
    intro p hp
    by_cases hc : c = sep
    · simp only [splitOnChar, hc, if_true, List.mem_cons] at hp
      rcases hp with hp | hp
      · subst hp; simp
      · exact ih hp
    · simp only [splitOnChar, hc, if_false] at hp
      cases hs : splitOnChar sep r with
      | nil => exact absurd hs (splitOnChar_ne_nil sep r)
      | cons hh tt =>
        rw [hs] at hp
        simp only [List.mem_cons] at hp
        rcases hp with hp | hp
        · subst hp
          intro hmem
          rcases List.mem_cons.mp hmem with hx | hx
          · exact hc hx.symm
          · exact ih (hs ▸ List.mem_cons_self hh tt) hx
        · exact ih (hs ▸ List.mem_cons_of_mem hh hp)

theorem mem_trimLeft {x : Char} {s : GoStr} (h : x ∈ trimLeft s) : x ∈ s :=
  (List.dropWhile_sublist isGoSpace).mem h

theorem mem_trimSpace {x : Char} {s : GoStr} (h : x ∈ trimSpace s) : x ∈ s := by
  unfold trimSpace trimRight at h
  rw [List.mem_reverse] at h
  have h2 := (List.dropWhile_sublist isGoSpace).mem h
  rw [List.mem_reverse] at h2
  exact mem_trimLeft h2

theorem mem_collectTags {t : GoStr} {ps : List GoStr}
    (h : t ∈ collectTags ps) : t ≠ [] ∧ ∃ p ∈ ps, t = trimSpace p := by
  rw [collectTags_eq] at h
  rw [List.mem_filter] at h
  obtain ⟨hm, hne⟩ := h
  rw [List.mem_map] at hm
  obtain ⟨p, hp, hpt⟩ := hm
  refine ⟨by simpa using hne, p, hp, hpt.symm⟩

theorem splitOnChar_no_sep {sep : Char} {s : GoStr} (h : sep ∉ s) :
    splitOnChar sep s = [s] := by
  induction s with
  | nil => rfl
  | cons c r ih =>
    have hc : c ≠ sep := fun he => h (by simp [he])
    simp only [splitOnChar, hc, if_false,
      ih (fun hm => h (List.mem_cons_of_mem c hm))]

theorem splitOnChar_append_sep (sep : Char) (A B : GoStr) (h : sep ∉ A) :
    splitOnChar sep (A ++ sep :: B) = A :: splitOnChar sep B := by
  induction A with
  | nil => simp [splitOnChar]
  | cons a r ih =>
    have ha : a ≠ sep := fun he => h (by simp [he])
    have ih2 := ih (fun hm => h (List.mem_cons_of_mem a hm))
    rw [List.cons_append]
    show (if a = sep then [] :: splitOnChar sep (r ++ sep :: B)
      else match splitOnChar sep (r ++ sep :: B) with
        | [] => [[a]]
        | p :: ps => (a :: p) :: ps) = (a :: r) :: splitOnChar sep B
    rw [if_neg ha, ih2]

theorem getLast?_append_right (a b : GoStr) (h : b ≠ []) :
    (a ++ b).getLast? = b.getLast? := by
  induction a with
  | nil => simp
  | cons x r ih =>
    rw [List.cons_append]
    cases hl : r ++ b with
    | nil => exact absurd (List.append_eq_nil.mp hl).2 h
    | cons y t =>
      rw [List.getLast?_cons_cons]
      exact hl ▸ ih

theorem goJoin_getLast? (sep : GoStr) :
    ∀ (ts : List GoStr), ts ≠ [] → (∀ t ∈ ts, t ≠ []) →
      ∃ t ∈ ts, (goJoin sep ts).getLast? = t.getLast? := by
  intro ts
  induction ts with
  | nil => intro h; exact absurd rfl h
  | cons x xs ih =>
    intro _ hall
    cases xs with
    | nil => exact ⟨x, by simp, rfl⟩
    | cons y ys =>
      obtain ⟨t, ht, hlast⟩ := ih (by simp)
        (fun u hu => hall u (List.mem_cons_of_mem x hu))
      have htne : t ≠ [] := hall t (List.mem_cons_of_mem x ht)
      have hjne : goJoin sep (y :: ys) ≠ [] := by
        intro hn
        rw [hn] at hlast
        cases t with
        | nil => exact htne rfl
        | cons a b =>
          have hsome : ((a :: b).getLast?).isSome :=
            List.getLast?_isSome.mpr (by simp)
          rw [← hlast] at hsome
          simp at hsome
      refine ⟨t, List.mem_cons_of_mem x ht, ?_⟩
      show (x ++ sep ++ goJoin sep (y :: ys)).getLast? = t.getLast?
      rw [List.append_assoc,
        getLast?_append_right x _ (by
          intro hn
          exact hjne (List.append_eq_nil.mp hn).2),
        getLast?_append_right sep _ hjne]
      exact hlast

theorem collectTags_split_join (ts : List GoStr)
    (h : ∀ t ∈ ts, t ≠ [] ∧ trimSpace t = t ∧ ',' ∉ t) :
    collectTags (splitOnChar ',' (goJoin (gs ", ") ts)) = ts := by
  induction ts with
  | nil => rfl
  | cons x xs ih =>
    obtain ⟨hx1, hx2, hx3⟩ := h x (by simp)
    cases xs with
    | nil =>
      show collectTags (splitOnChar ',' x) = [x]
      rw [splitOnChar_no_sep hx3]
      simp only [collectTags, hx2]
      rw [if_neg hx1]
    | cons y ys =>
      have hJ := ih (fun t ht => h t (List.mem_cons_of_mem x ht))
      show collectTags (splitOnChar ','
        (x ++ gs ", " ++ goJoin (gs ", ") (y :: ys))) = x :: y :: ys
      have hshape : x ++ gs ", " ++ goJoin (gs ", ") (y :: ys) =
          x ++ ',' :: (' ' :: goJoin (gs ", ") (y :: ys)) := by
        rw [List.append_assoc]
        rfl
      rw [hshape, splitOnChar_append_sep ',' x _ hx3]
      simp only [collectTags, hx2]
      rw [if_neg hx1]
      congr 1
      have t0 : trimSpace (' ' :: goJoin (gs ", ") (y :: ys)) =
          trimSpace (goJoin (gs ", ") (y :: ys)) := rfl
      calc collectTags (splitOnChar ',' (' ' :: goJoin (gs ", ") (y :: ys)))
          = collectTags (splitOnChar ','
              (trimSpace (' ' :: goJoin (gs ", ") (y :: ys)))) :=
            (collectTags_split_trim _).symm
        _ = collectTags (splitOnChar ','
              (trimSpace (goJoin (gs ", ") (y :: ys)))) := by rw [t0]
        _ = collectTags (splitOnChar ',' (goJoin (gs ", ") (y :: ys))) :=
            collectTags_split_trim _
        _ = y :: ys := hJ

theorem mem_goJoin {x : Char} (sep : GoStr) :
    ∀ (ts : List GoStr), x ∈ goJoin sep ts →
      x ∈ sep ∨ ∃ t ∈ ts, x ∈ t := by
  intro ts
  induction ts with
  | nil => intro h; simp [goJoin] at h
  | cons a xs ih =>
    intro h
    cases xs with
    | nil => exact Or.inr ⟨a, by simp, h⟩
    | cons y ys =>
      rcases List.mem_append.mp h with h1 | h1
      · rcases List.mem_append.mp h1 with h2 | h2
        · exact Or.inr ⟨a, by simp, h2⟩
        · exact Or.inl h2
      · rcases ih h1 with h2 | ⟨t, ht, hx⟩
        · exact Or.inl h2
        · exact Or.inr ⟨t, List.mem_cons_of_mem a ht, hx⟩

theorem dropCR_eq {l : GoStr} (h : l.getLast? ≠ some '\r') : dropCR l = l := by
  unfold dropCR
  rw [if_neg h]

theorem scanTokens_six (L1 L2 L3 L4 L5 : GoStr)
    (h1 : nlc ∉ L1) (h2 : nlc ∉ L2) (h3 : nlc ∉ L3) (h4 : nlc ∉ L4)
    (h5 : nlc ∉ L5)
    (d1 : L1.getLast? ≠ some '\r') (d2 : L2.getLast? ≠ some '\r')
    (d3 : L3.getLast? ≠ some '\r') (d4 : L4.getLast? ≠ some '\r')
    (d5 : L5.getLast? ≠ some '\r') :
    scanTokens (L1 ++ [nlc] ++ (L2 ++ [nlc]) ++ (L3 ++ [nlc]) ++
      (L4 ++ [nlc]) ++ (L5 ++ [nlc]) ++ [nlc]) = [L1, L2, L3, L4, L5, []] := by
  have hsh : L1 ++ [nlc] ++ (L2 ++ [nlc]) ++ (L3 ++ [nlc]) ++
      (L4 ++ [nlc]) ++ (L5 ++ [nlc]) ++ [nlc] =
      L1 ++ '\n' :: (L2 ++ '\n' :: (L3 ++ '\n' :: (L4 ++ '\n' ::
        (L5 ++ '\n' :: ('\n' :: []))))) := by
    simp [nlc, List.append_assoc]
  unfold scanTokens
  rw [hsh,
    splitOnChar_append_sep '\n' L1 _ (by simpa [nlc] using h1),
    splitOnChar_append_sep '\n' L2 _ (by simpa [nlc] using h2),
    splitOnChar_append_sep '\n' L3 _ (by simpa [nlc] using h3),
    splitOnChar_append_sep '\n' L4 _ (by simpa [nlc] using h4),
    splitOnChar_append_sep '\n' L5 _ (by simpa [nlc] using h5)]
  rw [show splitOnChar '\n' ('\n' :: []) = [[], []] from rfl]
  dsimp only
  rw [show ([L1, L2, L3, L4, L5, [], []] : List GoStr).getLast? = some []
    from rfl]
  rw [if_pos rfl]
  rw [show ([L1, L2, L3, L4, L5, ([] : GoStr), []] : List GoStr).dropLast =
    [L1, L2, L3, L4, L5, []] from rfl]
  simp only [List.map_cons, List.map_nil]
  rw [dropCR_eq d1, dropCR_eq d2, dropCR_eq d3, dropCR_eq d4, dropCR_eq d5,
    dropCR_eq (show ([] : GoStr).getLast? ≠ some '\r' by simp)]

theorem utf8Len_pos {s : GoStr} (h : s ≠ []) : 0 < utf8Len s := by
  cases s with
  | nil => exact absurd rfl h
  | cons c r =>
    have := Char.utf8Size_pos c
    simp only [utf8Len, List.map_cons, List.sum_cons]
    omega

theorem isTitleBar_replicate {n : Nat} (h : 0 < n) :
    isTitleBar (List.replicate n '=') = true := by
  cases n with
  | zero => omega
  | succ k =>
    simp only [isTitleBar, Bool.and_eq_true, ne_eq, decide_eq_true_eq,
      List.all_eq_true]
    refine ⟨by simp, fun x hx => by simpa using List.eq_of_mem_replicate hx⟩

theorem format_ne_nil (t : GoTime) : formatRFC3339 t ≠ [] := by
  simp only [formatRFC3339, pad4, pad2]
  simp

theorem mem_of_getLast?_eq {l : GoStr} {c : Char}
    (h : l.getLast? = some c) : c ∈ l := by
  obtain ⟨hne, heq⟩ := List.mem_getLast?_eq_getLast (Option.mem_def.mpr h)
  exact heq ▸ List.getLast_mem hne

theorem loadNoteLines_render (cfg : Config) (note : Note) (path : GoStr)
    (ts : List GoStr)
    (hvalid : validGoTime note.created)
    (hnz : goTimeIsZero note.created = false)
    (ht1 : effTitle note ≠ []) (ht2 : isTitleBar (effTitle note) = false)
    (ht3 : nlc ∉ effTitle note) (ht4 : (effTitle note).getLast? ≠ some '\r')
    (hcne : note.category ≠ [])
    (hc1 : trimSpace note.category = note.category)
    (hc2 : nlc ∉ note.category)
    (hto : note.tags = some ts)
    (htw : ∀ t ∈ ts, t ≠ [] ∧ trimSpace t = t ∧ ',' ∉ t ∧ nlc ∉ t)
    (hbase : goFilepathBase (goFilepathDir path) = note.category) :
    loadNoteLines path cfg (scanTokens (renderNote note)) =
      .ok ⟨cfg, note.category, note.tags, note.created, goFilepathBase path,
        effTitle note⟩ := by
  have h2 : nlc ∉ List.replicate (utf8Len (effTitle note)) '=' := by
    intro hm
    exact absurd (List.eq_of_mem_replicate hm) (by decide)
  have h3 : nlc ∉ gs "- Category: " ++ note.category := by
    intro hm
    rcases List.mem_append.mp hm with hx | hx
    · exact absurd hx (by decide)
    · exact hc2 hx
  have h4 : nlc ∉ gs "- Tags: " ++ goJoin (gs ", ") ts := by
    intro hm
    rcases List.mem_append.mp hm with hx | hx
    · exact absurd hx (by decide)
    · rcases mem_goJoin (gs ", ") ts hx with hx2 | ⟨t, ht, hx2⟩
      · exact absurd hx2 (by decide)
      · exact (htw t ht).2.2.2 hx2
  have h5 : nlc ∉ gs "- Created: " ++ formatRFC3339 note.created := by
    intro hm
    rcases List.mem_append.mp hm with hx | hx
    · exact absurd hx (by decide)
    · exact absurd (format_no_space note.created hvalid nlc hx) (by decide)
  have d2 : (List.replicate (utf8Len (effTitle note)) '=').getLast? ≠
      some '\r' := by
    intro hcr
    have hm := mem_of_getLast?_eq hcr
    exact absurd (List.eq_of_mem_replicate hm) (by decide)
  have d3 : (gs "- Category: " ++ note.category).getLast? ≠ some '\r' := by
    rw [getLast?_append_right _ _ hcne]
    exact trimmed_getLast_ne_cr hc1
  have d4 : (gs "- Tags: " ++ goJoin (gs ", ") ts).getLast? ≠ some '\r' := by
    by_cases hts : ts = []
    · subst hts
      decide
    · obtain ⟨t, ht, heq⟩ := goJoin_getLast? (gs ", ") ts hts
        (fun u hu => (htw u hu).1)
      have htne : t ≠ [] := (htw t ht).1
      have hjne : goJoin (gs ", ") ts ≠ [] := by
        intro hn
        rw [hn] at heq
        cases t with
        | nil => exact htne rfl
        | cons a b =>
          have hsome : ((a :: b).getLast?).isSome :=
            List.getLast?_isSome.mpr (by simp)
          rw [← heq] at hsome
          simp at hsome
      rw [getLast?_append_right _ _ hjne, heq]
      exact trimmed_getLast_ne_cr (htw t ht).2.1
  have d5 : (gs "- Created: " ++ formatRFC3339 note.created).getLast? ≠
      some '\r' := by
    rw [getLast?_append_right _ _ (format_ne_nil note.created)]
    intro hcr
    have hm := mem_of_getLast?_eq hcr
    exact absurd (format_no_space note.created hvalid _ hm) (by decide)
  have hflat : renderNote note =
      effTitle note ++ [nlc] ++
      (List.replicate (utf8Len (effTitle note)) '=' ++ [nlc]) ++
      (gs "- Category: " ++ note.category ++ [nlc]) ++
      (gs "- Tags: " ++ goJoin (gs ", ") ts ++ [nlc]) ++
      (gs "- Created: " ++ formatRFC3339 note.created ++ [nlc]) ++ [nlc] := by
    simp [renderNote, effTitle, hto, List.append_assoc]
  have hscan := scanTokens_six (effTitle note)
    (List.replicate (utf8Len (effTitle note)) '=')
    (gs "- Category: " ++ note.category)
    (gs "- Tags: " ++ goJoin (gs ", ") ts)
    (gs "- Created: " ++ formatRFC3339 note.created)
    ht3 h2 h3 h4 h5 ht4 d2 d3 d4 d5
  rw [hflat, hscan]
  -- now run the five scan steps
  have s1 : processLine path initScanSt (effTitle note) =
      .ok ⟨effTitle note, [], none, zeroGoTime, false⟩ := by
    simp [processLine, initScanSt, ht2]
  have s2 : processLine path ⟨effTitle note, [], none, zeroGoTime, false⟩
      (List.replicate (utf8Len (effTitle note)) '=') =
      .ok ⟨effTitle note, [], none, zeroGoTime, true⟩ := by
    simp [processLine, isTitleBar_replicate (utf8Len_pos ht1), ht1]
  have s3 : processLine path ⟨effTitle note, [], none, zeroGoTime, true⟩
      (gs "- Category: " ++ note.category) =
      .ok ⟨effTitle note, note.category, none, zeroGoTime, true⟩ := by
    simp only [processLine, Bool.true_eq_false, if_false]
    rw [if_pos (isPrefixOf_append_self _ _)]
    rw [show (gs "- Category: " ++ note.category).drop 12 = note.category
      from by
        rw [show (12 : Nat) = (gs "- Category: ").length from rfl]
        exact List.drop_left _ _]
    rw [hc1, hbase]
    rw [if_neg (fun hh => hh rfl)]
  have s4 : processLine path
      ⟨effTitle note, note.category, none, zeroGoTime, true⟩
      (gs "- Tags: " ++ goJoin (gs ", ") ts) =
      .ok ⟨effTitle note, note.category, some ts, zeroGoTime, true⟩ := by
    simp only [processLine, Bool.true_eq_false, if_false]
    rw [if_neg (show ¬((gs "- Category: ").isPrefixOf
        (gs "- Tags: " ++ goJoin (gs ", ") ts) = true) from by
      rw [show (gs "- Category: ").isPrefixOf
        (gs "- Tags: " ++ goJoin (gs ", ") ts) = false from rfl]
      simp)]
    rw [if_pos (show (gs "- Tags:").isPrefixOf
      (gs "- Tags: " ++ goJoin (gs ", ") ts) = true from rfl)]
    rw [show (gs "- Tags: " ++ goJoin (gs ", ") ts).drop 7 =
      ' ' :: goJoin (gs ", ") ts from rfl]
    rw [show trimSpace (' ' :: goJoin (gs ", ") ts) =
      trimSpace (goJoin (gs ", ") ts) from rfl]
    rw [collectTags_split_trim,
      collectTags_split_join ts
        (fun t ht => ⟨(htw t ht).1, (htw t ht).2.1, (htw t ht).2.2.1⟩)]
  have s5 : processLine path
      ⟨effTitle note, note.category, some ts, zeroGoTime, true⟩
      (gs "- Created: " ++ formatRFC3339 note.created) =
      .ok ⟨effTitle note, note.category, some ts, note.created, true⟩ := by
    simp only [processLine, Bool.true_eq_false, if_false]
    rw [if_neg (show ¬((gs "- Category: ").isPrefixOf
        (gs "- Created: " ++ formatRFC3339 note.created) = true) from by
      rw [show (gs "- Category: ").isPrefixOf
        (gs "- Created: " ++ formatRFC3339 note.created) = false from rfl]
      simp)]
    rw [if_neg (show ¬((gs "- Tags:").isPrefixOf
        (gs "- Created: " ++ formatRFC3339 note.created) = true) from by
      rw [show (gs "- Tags:").isPrefixOf
        (gs "- Created: " ++ formatRFC3339 note.created) = false from rfl]
      simp)]
    rw [if_pos (show (gs "- Created: ").isPrefixOf
      (gs "- Created: " ++ formatRFC3339 note.created) = true from
        isPrefixOf_append_self _ _)]
    rw [show (gs "- Created: " ++ formatRFC3339 note.created).drop 11 =
      formatRFC3339 note.created from by
        rw [show (11 : Nat) = (gs "- Created: ").length from rfl]
        exact List.drop_left _ _]
    rw [trimSpace_no_space (format_no_space note.created hvalid),
      parseRFC3339_format note.created hvalid]
  have sdC : scanDone ⟨effTitle note, note.category, none, zeroGoTime,
      true⟩ = false := by
    simp [scanDone]
  have sdD : scanDone ⟨effTitle note, note.category, some ts, zeroGoTime,
      true⟩ = false := by
    simp [scanDone, show goTimeIsZero zeroGoTime = true from by decide]
  have sdE : scanDone ⟨effTitle note, note.category, some ts, note.created,
      true⟩ = true := by
    simp [scanDone, hcne, hnz, ht1]
  have sdA : scanDone ⟨effTitle note, [], none, zeroGoTime, false⟩ =
      false := rfl
  have sdB : scanDone ⟨effTitle note, [], none, zeroGoTime, true⟩ =
      false := rfl
  have hchain : scanLines path initScanSt [effTitle note,
      List.replicate (utf8Len (effTitle note)) '=',
      gs "- Category: " ++ note.category,
      gs "- Tags: " ++ goJoin (gs ", ") ts,
      gs "- Created: " ++ formatRFC3339 note.created, []] =
      .broke ⟨effTitle note, note.category, some ts, note.created, true⟩ := by
    simp only [scanLines, s1, s2, s3, s4, s5, sdA, sdB, sdC, sdD, sdE,
      Bool.false_eq_true, if_false, if_true]
  simp only [loadNoteLines, hchain, Bool.true_eq_false, if_false]
  rw [hto]
  rw [if_neg (by
    rintro (hh | hh | hh)
    · exact hcne hh
    · exact Option.noConfusion hh
    · rw [hnz] at hh
      exact Bool.noConfusion hh)]

/-- C1 (amended): for every Note built by `NewNote` whose effective
title (stored title, or file stem when empty) is non-empty, is not
itself an all-`=` bar line and has no newline or trailing carriage
return, whose category is whitespace-trimmed with no newline, whose raw
tags contain no newline, whose creation time is a valid calendar time
that does not denote the zero instant (Go `IsZero` is instant-based, so
any rendering of January 1, year 1, 00:00:00 UTC is excluded, whatever
its zone), and whose store layout makes the parent directory's base
name equal the category, running `Create` and then `LoadNote` on the
resulting path yields a note with equal category, tags and created
timestamp, and title equal to the stored title when non-empty, else the
file name with its extension stripped. -/
theorem c1_round_trip (cfg : Config) (cat rawTags fileHint title : GoStr)
    (now : GoTime) (fs : FS) (n : Note)
    (hmk : NewNote cat rawTags fileHint title cfg now = .ok n)
    (hvalid : validGoTime now) (hnz : goTimeIsZero now = false)
    (ht1 : effTitle n ≠ []) (ht2 : isTitleBar (effTitle n) = false)
    (ht3 : nlc ∉ effTitle n) (ht4 : (effTitle n).getLast? ≠ some '\r')
    (hc1 : trimSpace n.category = n.category) (hc2 : nlc ∉ n.category)
    (htg : nlc ∉ rawTags)
    (hbase : goFilepathBase (goFilepathDir (goJoinPath n.dirPath n.file)) =
      n.category)
    (hfree : lookupFS fs (goJoinPath n.dirPath n.file) = none) :
    ∃ m, (n.create fs).1 = .ok () ∧
      LoadNote (goJoinPath n.dirPath n.file) cfg (n.create fs).2 = .ok m ∧
      m.category = n.category ∧ m.tags = n.tags ∧ m.created = n.created ∧
      m.title = (if n.title = [] then
        trimSuffix n.file (goFilepathExt n.file) else n.title) := by
  have hcatne : cat ≠ [] := by
    intro h
    unfold NewNote at hmk
    rw [if_pos h] at hmk
    exact Except.noConfusion hmk
  have hfilene : fileHint ≠ [] := by
    intro h
    unfold NewNote at hmk
    rw [if_neg hcatne, if_pos h] at hmk
    exact Except.noConfusion hmk
  unfold NewNote at hmk
  rw [if_neg hcatne, if_neg hfilene] at hmk
  dsimp only at hmk
  injection hmk with hn
  have hcatp : n.category = cat := by rw [← hn]
  have htagsp : n.tags = some (collectTags (splitOnChar ',' rawTags)) := by
    rw [← hn]
  have hcreatedp : n.created = now := by rw [← hn]
  have htw : ∀ t ∈ collectTags (splitOnChar ',' rawTags),
      t ≠ [] ∧ trimSpace t = t ∧ ',' ∉ t ∧ nlc ∉ t := by
    intro t ht
    obtain ⟨hne, p0, hp0, hteq⟩ := mem_collectTags ht
    refine ⟨hne, ?_, ?_, ?_⟩
    · rw [hteq, trimSpace_idem]
    · intro hx
      rw [hteq] at hx
      exact sep_not_mem_splitOnChar hp0 (mem_trimSpace hx)
    · intro hx
      rw [hteq] at hx
      exact htg (mem_of_mem_splitOnChar hp0 (mem_trimSpace hx))
  have hcreate : n.create fs =
      (.ok (), (goJoinPath n.dirPath n.file, renderNote n) :: fs) := by
    unfold Note.create
    dsimp only
    rw [hfree]
    rfl
  refine ⟨⟨cfg, n.category, n.tags, n.created,
    goFilepathBase (goJoinPath n.dirPath n.file), effTitle n⟩,
    ?_, ?_, rfl, rfl, rfl, rfl⟩
  · rw [hcreate]
  · rw [hcreate]
    unfold LoadNote
    rw [show lookupFS ((goJoinPath n.dirPath n.file, renderNote n) :: fs)
        (goJoinPath n.dirPath n.file) = some (renderNote n) from by
      simp [lookupFS]]
    exact loadNoteLines_render cfg n (goJoinPath n.dirPath n.file)
      (collectTags (splitOnChar ',' rawTags))
      (by rw [hcreatedp]; exact hvalid)
      (by rw [hcreatedp]; exact hnz)
      ht1 ht2 ht3 ht4
      (by rw [hcatp]; exact hcatne)
      hc1 hc2 htagsp htw hbase

/-- Witness for C1 at the concrete note
`NewNote("blog", " foo,bar ,  ", "my note", "Hello")` in an empty
store. -/
theorem c1_round_trip_witness :
    (NewNote (gs "blog") (gs " foo,bar ,  ") (gs "my note") (gs "Hello")
      wCfg wTime = .ok wNote) ∧
    validGoTime wTime ∧ goTimeIsZero wTime = false ∧
    effTitle wNote ≠ [] ∧ isTitleBar (effTitle wNote) = false ∧
    (goFilepathBase (goFilepathDir
      (goJoinPath wNote.dirPath wNote.file)) = wNote.category) ∧
    (∃ m, (wNote.create []).1 = .ok () ∧
      LoadNote (goJoinPath wNote.dirPath wNote.file) wCfg
        (wNote.create []).2 = .ok m ∧
      m.category = wNote.category ∧ m.tags = wNote.tags ∧
      m.created = wNote.created ∧
      m.title = (if wNote.title = [] then
        trimSuffix wNote.file (goFilepathExt wNote.file)
        else wNote.title)) :=
  ⟨by decide, by decide, by decide, by decide, by decide, by decide,
    c1_round_trip wCfg (gs "blog") (gs " foo,bar ,  ") (gs "my note")
      (gs "Hello") wTime [] wNote (by decide) (by decide) (by decide)
      (by decide) (by decide) (by decide) (by decide) (by decide)
      (by decide) (by decide) (by decide) (by decide)⟩

/-- Counterexample to C1 as stated: the note built by
`NewNote("blog", "", "x", "=")` has the non-empty title `=`; `Create`
then `LoadNote` succeeds, but the loaded title is the sentinel
`(no title)` (the written title line is itself an all-`=` bar), not the
note's title as the claim requires. -/
theorem c1_counterexample :
    NewNote (gs "blog") [] (gs "x") (gs "=") wCfg wTime = .ok cexBarNote ∧
    (cexBarNote.create []).1 = .ok () ∧
    LoadNote (goJoinPath cexBarNote.dirPath cexBarNote.file) wCfg
      (cexBarNote.create []).2 =
      .ok ⟨wCfg, gs "blog", some [], wTime, gs "x.md", gs "(no title)"⟩ ∧
    cexBarNote.title ≠ [] ∧
    (gs "(no title)" : GoStr) ≠ cexBarNote.title :=
  ⟨by decide, by decide, by decide, by decide, by decide⟩
